import Mathlib

/-!
Verification of the rePiX pixel-art restoration pipeline.

Shallow embedding of the core image operations of the rePiX repository
(src/ImageAdjustments.cpp, src/image.cpp, src/rePiX.cpp).  Pixel buffers are
modelled as functions from flat indices to packed 32-bit ARGB values (or as
lists of such values where the operation is a pure per-pixel map); machine
integers are modelled by Nat / Int, with an explicit `% 2 ^ 32` at the one
place where unsigned wrap-around is semantically relevant
(averageColorForSampleSize).  The C code computes `sqrt` of an integer sum of
squares (at most 3 * 255 ^ 2 = 195075) in double precision and truncates the
result to `unsigned`; over that range the correctly rounded double square
root truncates to the integer square root, so it is embedded as `Nat.sqrt`.
-/

namespace RePiX

/-- Red component of a packed ARGB color, bits 16..23
    (getColorComponents, ImageAdjustments.cpp). -/
def red (color : Nat) : Nat := color / 2 ^ 16 % 256

/-- Green component of a packed ARGB color, bits 8..15. -/
def green (color : Nat) : Nat := color / 2 ^ 8 % 256

/-- Blue component of a packed ARGB color, bits 0..7. -/
def blue (color : Nat) : Nat := color % 256

/-- Fuel-based Newton iteration for the integer square root; a kernel-reducible
    version of the iteration underlying `Nat.sqrt`.  With fuel at least the
    starting guess it computes exactly `Nat.sqrt.iter` (see `isqrt_eq_sqrt`). -/
def isqrtIter (n : Nat) : Nat → Nat → Nat
  | 0, guess => guess
  | fuel + 1, guess =>
      let next := (guess + n / guess) / 2
      if next < guess then isqrtIter n fuel next else guess

/-- Integer square root (largest `r` with `r * r ≤ n`), computable by the
    kernel; proved equal to `Nat.sqrt` in `isqrt_eq_sqrt`. -/
def isqrt (n : Nat) : Nat :=
  if n ≤ 1 then n else isqrtIter n n (n / 2)

/-- Euclidean RGB distance between two packed colors, alpha ignored, truncated
    to an integer (colorDistance, ImageAdjustments.cpp lines 44-55).  The C
    code computes the component differences as ints, sums their squares and
    truncates the double `sqrt` to `unsigned`; over the attainable range
    (at most 195075) the correctly rounded double square root truncates to
    the integer square root. -/
def colorDistance (c1 c2 : Nat) : Nat :=
  isqrt ((((red c1 : Int) - red c2) * ((red c1 : Int) - red c2) +
          ((green c1 : Int) - green c2) * ((green c1 : Int) - green c2) +
          ((blue c1 : Int) - blue c2) * ((blue c1 : Int) - blue c2)).toNat)

/-- The palette scan of mapColorsToNearestPalette (ImageAdjustments.cpp lines
    150-156): starting from `distance = 256` and `matchedColor = baseColor`,
    scan entries `0 .. paletteSize-1` and update on strictly smaller distance.
    The C loop `for (int n = 0; n < paletteSize; ++n)` runs `paletteSize.toNat`
    times.  Returns the final (distance, matchedColor) pair. -/
def findNearest (palt : Nat → Nat) (paletteSize : Int) (baseColor : Nat) : Nat × Nat :=
  (List.range paletteSize.toNat).foldl
    (fun acc n =>
      if colorDistance baseColor (palt n) < acc.1 then (colorDistance baseColor (palt n), palt n)
      else acc)
    (256, baseColor)

/-- Per-pixel body of mapColorsToNearestPalette (ImageAdjustments.cpp lines
    146-160): palette scan followed by the transparency substitution
    `if (transparencyIndex >= 0) if (matchedColor == palt[transparencyIndex])
    matchedColor = 0`. -/
def mapPixel (palt : Nat → Nat) (paletteSize transparencyIndex : Int) (baseColor : Nat) : Nat :=
  let matchedColor := (findNearest palt paletteSize baseColor).2
  if 0 ≤ transparencyIndex ∧ matchedColor = palt transparencyIndex.toNat then 0
  else matchedColor

/-- ImageAdjustments::mapColorsToNearestPalette (ImageAdjustments.cpp lines
    141-163).  The C loops over y and x touch each flat index `x + y * w`
    exactly once, and each iteration reads and writes only its own index, so
    on a row-major buffer of length `w * h` the function is the per-pixel map
    of `mapPixel`. -/
def mapColorsToNearestPalette (pixels : List Nat) (palt : Nat → Nat)
    (paletteSize transparencyIndex : Int) : List Nat :=
  pixels.map (mapPixel palt paletteSize transparencyIndex)

/-- The palette object (ColorTable.hpp): a 256-entry table of packed colors
    with a defined count and a transparency index, both int16. -/
structure ColorTable where
  colors : Nat → Nat
  transparency : Int
  defined : Int

/-- The ColorTable default constructor (ColorTable.hpp lines 37-40):
    `_colors = {}` zero-initialized, `_transparency = -1`, `_defined = 0`. -/
def ColorTable.init : ColorTable :=
  { colors := fun _ => 0, transparency := -1, defined := 0 }

/-- rePiX::normalizeColorsToColorTable (rePiX.cpp lines 327-329): forwards the
    table data, defined count and transparency index to the quantizer. -/
def normalizeColorsToColorTable (pixels : List Nat) (colorTable : ColorTable) : List Nat :=
  mapColorsToNearestPalette pixels colorTable.colors colorTable.defined colorTable.transparency

/-- Pointwise update of a buffer modelled as a function from flat indices to
    pixel values: the effect of the C assignment `colors[i] = v`. -/
def upd (f : Nat → Nat) (i v : Nat) : Nat → Nat :=
  fun j => if j = i then v else f j

/-- One guarded neighbor write of applyOutline (ImageAdjustments.cpp lines
    180-202): under the bounds condition, if the neighbor at flat index `k`
    currently holds 0, it is set to opaque black 0xFF000000. -/
def markIfZero (colors : Nat → Nat) (cond : Prop) [Decidable cond] (k : Nat) : Nat → Nat :=
  if cond ∧ colors k = 0 then upd colors k 0xFF000000 else colors

/-- Body of the applyOutline double loop at pixel (x, y) (ImageAdjustments.cpp
    lines 171-202): skip the pixel if its color is 0 or opaque black,
    otherwise write opaque black into each in-bounds 4-connected neighbor that
    currently holds 0, in the source order left, right, up, down.  The four
    guards read the buffer as already updated by the earlier writes of the
    same iteration, exactly as the C code does on shared memory. -/
def outlineStep (w h : Nat) (colors : Nat → Nat) (x y : Nat) : Nat → Nat :=
  if colors (x + y * w) = 0 then colors
  else if colors (x + y * w) = 0xFF000000 then colors
  else
    markIfZero (markIfZero (markIfZero (markIfZero colors (0 < x) (x + y * w - 1))
      (x < w - 1) (x + y * w + 1)) (0 < y) (x + y * w - w)) (y < h - 1) (x + y * w + w)

/-- ImageAdjustments::applyOutline (ImageAdjustments.cpp lines 165-205):
    row-major, left-to-right, top-to-bottom sweep of `outlineStep`. -/
def applyOutline (w h : Nat) (colors : Nat → Nat) : Nat → Nat :=
  (List.range h).foldl
    (fun cs y => (List.range w).foldl (fun cs2 x => outlineStep w h cs2 x y) cs) colors

/-- Flat index `k` is an in-bounds 4-connected orthogonal neighbor (with the
    exact bounds conditions of the C code) of some pixel (x, y) whose color in
    `colors` is neither 0 nor opaque black. -/
def outlineSource (w h : Nat) (colors : Nat → Nat) (k : Nat) : Prop :=
  ∃ x y, x < w ∧ y < h ∧ colors (x + y * w) ≠ 0 ∧ colors (x + y * w) ≠ 0xFF000000 ∧
    ((0 < x ∧ k = x + y * w - 1) ∨ (x < w - 1 ∧ k = x + y * w + 1) ∨
     (0 < y ∧ k = x + y * w - w) ∨ (y < h - 1 ∧ k = x + y * w + w))

/-- Invariant of the outline sweep relating the current buffer to the buffer
    `orig` the pass began with: every pixel is unchanged, or was 0 in `orig`,
    is now opaque black, and has an in-bounds 4-neighbor whose original color
    was neither 0 nor opaque black. -/
def OutlineInv (w h : Nat) (orig colors : Nat → Nat) : Prop :=
  ∀ j, colors j = orig j ∨
    (orig j = 0 ∧ colors j = 0xFF000000 ∧ outlineSource w h orig j)

/-- Normalized RGB triple (ColorRGB in ImageAdjustments.cpp).  The C fields
    are 32-bit floats; the embedding uses exact rational arithmetic, which
    agrees with the float computation whenever every intermediate value is
    exactly representable (in particular for the power-of-two quantization
    steps and the concrete inputs below, where all intermediates are small
    dyadics or land far from rounding boundaries). -/
structure ColorRGB where
  r : ℚ
  g : ℚ
  b : ℚ

/-- C `round` (round half away from zero) restricted to nonnegative
    arguments, the only ones arising here: round(q) = floor(q + 1/2). -/
def round0 (q : ℚ) : ℤ :=
  ⌊q + 1 / 2⌋

/-- convertFromPackedRGB (ImageAdjustments.cpp lines 57-71): extract the RGB
    bytes and normalize to the range 0..1. -/
def convertFromPackedRGB (color : Nat) : ColorRGB :=
  { r := (red color : ℚ) / 255, g := (green color : ℚ) / 255, b := (blue color : ℚ) / 255 }

/-- convertToPackedRGB (ImageAdjustments.cpp lines 73-82): scale each channel
    back to 0..255, truncate to an integer (the C cast of a nonnegative float
    to `Color`), and pack as `a << 24 | r << 16 | g << 8 | b`. -/
def convertToPackedRGB (c : ColorRGB) (alpha : ℚ) : Nat :=
  ((⌊alpha * 255⌋).toNat <<< 24) ||| ((⌊c.r * 255⌋).toNat <<< 16) |||
    ((⌊c.g * 255⌋).toNat <<< 8) ||| (⌊c.b * 255⌋).toNat

/-- postorizeChannel (ImageAdjustments.cpp lines 85-88): quantize a channel
    value to `round(value / step) * step` with `step = 1 / (levels - 1)`. -/
def postorizeChannel (value : ℚ) (levels : Nat) : ℚ :=
  (round0 (value / (1 / ((levels : ℚ) - 1))) : ℚ) * (1 / ((levels : ℚ) - 1))

/-- posterizeRGB (ImageAdjustments.cpp lines 91-96). -/
def posterizeRGB (c : ColorRGB) (levels : Nat) : ColorRGB :=
  { r := postorizeChannel c.r levels, g := postorizeChannel c.g levels,
    b := postorizeChannel c.b levels }

/-- Per-pixel body of ImageAdjustments::postorize (lines 99-108): unpack,
    posterize each channel, repack with alpha forced to fully opaque. -/
def postorizePixel (color levels : Nat) : Nat :=
  convertToPackedRGB (posterizeRGB (convertFromPackedRGB color) levels) 1

/-- ImageAdjustments::postorize over a buffer of pixels. -/
def postorize (pixels : List Nat) (levels : Nat) : List Nat :=
  pixels.map (fun c => postorizePixel c levels)

/-- The channel-byte to channel-byte map realized by one posterize pass. -/
def postorizeChannelByte (c levels : Nat) : Nat :=
  (⌊postorizeChannel ((c : ℚ) / 255) levels * 255⌋).toNat

/-- Integer form of the posterize channel map for `levels ≥ 2` (proved equal
    to `postorizeChannelByte` in `postorizeChannelByte_eq`): the quantization
    index is `round(c * (levels-1) / 255) = (2 * c * (levels-1) + 255) / 510`
    and the output byte truncates `index * 255 / (levels-1)`. -/
def postorizeByteInt (c L : Nat) : Nat :=
  255 * ((2 * c * (L - 1) + 255) / 510) / (L - 1)

/-- The TImage record (image.hpp lines 32-37): width, height, bits per pixel
    and the pixel data, here modelled as a function from flat indices to
    packed 32-bit values. -/
structure TImage where
  width : Nat
  height : Nat
  bitWidth : Nat
  data : Nat → Nat

/-- createPixmap (image.cpp lines 361-379): a fresh image whose data is
    calloc-zeroed.  Allocation success is assumed (the embedding has no
    allocation failure); the failure path is not modelled. -/
def createPixmap (w h bitWidth : Nat) : TImage :=
  { width := w, height := h, bitWidth := bitWidth, data := fun _ => 0 }

/-- The nested write loops of scaleImage (image.cpp lines 606-621): for each
    source pixel (x, y) and each (sy, sx) in a factor-by-factor block, write
    the source color at destination index `posX + posY * scaledWidth` with
    `posX = x * scale + sx`, `posY = y * scale + sy`.  The C loop counters
    sx, sy are floats stepping by 1.0 from 0 while below `scale`; for
    `scale < 2^24` that float arithmetic is exact and performs exactly
    `scale` iterations with integer values, which is what is embedded. -/
def scaledData (image : TImage) (scale : Nat) : Nat → Nat :=
  (List.range image.height).foldl (fun d y =>
    (List.range image.width).foldl (fun d2 x =>
      (List.range scale).foldl (fun d3 sy =>
        (List.range scale).foldl (fun d4 sx =>
          upd d4 ((x * scale + sx) + (y * scale + sy) * (image.width * scale))
            (image.data (y * image.width + x))) d3) d2) d)
    (createPixmap (image.width * scale) (image.height * scale) 32).data

/-- The scaled image built by scaleImage on the success path. -/
def scaledImageOf (image : TImage) (scale : Nat) : TImage :=
  { width := image.width * scale, height := image.height * scale, bitWidth := 32,
    data := scaledData image scale }

/-- scaleImage (image.cpp lines 587-623): fails (returns null) unless the
    input is 32 bits per pixel, otherwise allocates a pixmap of
    `width * scale` by `height * scale` and replicates each source pixel
    into a scale-by-scale block.  The null-input and allocation-failure
    early returns are not modelled (buffers always exist here). -/
def scaleImage (image : TImage) (scale : Nat) : Option TImage :=
  if image.bitWidth ≠ 32 then none
  else some (scaledImageOf image scale)

/-- Number of pixels of an image holding color `c`, counted over the
    row-major grid. -/
def colorCount (image : TImage) (c : Nat) : Nat :=
  ((Finset.range image.height ×ˢ Finset.range image.width).filter
    (fun p => image.data (p.1 * image.width + p.2) = c)).card

/-- getPixel (rePiX.cpp lines 218-221): bounds-checked read, out-of-range
    coordinates read as color 0. -/
def getPixel (x y w h : Nat) (pixelData : Nat → Nat) : Nat :=
  if w ≤ x ∨ h ≤ y then 0 else pixelData (x + y * w)

/-- averageColorForSampleSize (rePiX.cpp lines 223-262): clamp the sample
    size to at least 1, move the window origin by `size / 2` (an unsigned
    32-bit subtraction, which wraps; the wrap and the subsequent unsigned
    additions are modelled with an explicit `% 2 ^ 32`, valid because the C
    operands are uint32), sum each channel of the size-by-size window
    (bitfield layout of rePiX.cpp: r is the low byte, then g, b, a), divide
    each sum by `size * size` with truncation, and reassemble the four
    8-bit fields.  The channel sums are C uint32 values; they are modelled
    as unbounded naturals, exact unless a window of at least 2^24 samples
    overflows, which no claim exercises. -/
def averageColorForSampleSize (size x y w h : Nat) (pixelData : Nat → Nat) : Nat :=
  let sz := if size < 1 then 1 else size
  let x2 := (x + 2 ^ 32 - sz / 2) % 2 ^ 32
  let y2 := (y + 2 ^ 32 - sz / 2) % 2 ^ 32
  let sums := (List.range sz).foldl (fun s i =>
    (List.range sz).foldl (fun s2 j =>
      ((fun c => (s2.1 + c % 256, s2.2.1 + c / 2 ^ 8 % 256, s2.2.2.1 + c / 2 ^ 16 % 256,
        s2.2.2.2 + c / 2 ^ 24 % 256))
        (getPixel ((x2 + j) % 2 ^ 32) ((y2 + i) % 2 ^ 32) w h pixelData))) s)
    ((0, 0, 0, 0) : Nat × Nat × Nat × Nat)
  (sums.1 / (sz * sz)) % 256 + ((sums.2.1 / (sz * sz)) % 256) * 2 ^ 8 +
    ((sums.2.2.1 / (sz * sz)) % 256) * 2 ^ 16 + ((sums.2.2.2 / (sz * sz)) % 256) * 2 ^ 24

/-- setImagePixel (rePiX.cpp lines 149-154): bounds-checked write.  The C
    coordinates are unsigned short; the truncation mod 2^16 is not modelled
    and the embedding is faithful for coordinates below 2^16, which holds for
    every uint16-dimensioned TImage. -/
def setImagePixel (image : TImage) (x y : Nat) (color : Nat) : TImage :=
  if image.width ≤ x ∨ image.height ≤ y then image
  else { image with data := upd image.data (x + y * image.width) color }

/-- Inner (x) loop of rePiX::restorePixelatedImage (rePiX.cpp lines 306-311):
    while `x < width`, sample the window centered at
    `(x + blockSize/2, y + blockSize/2)` (the C float expressions are
    converted to unsigned, i.e. truncated; the floats are embedded as exact
    rationals, which agrees with the float loop whenever blockSize and the
    accumulated coordinates are exactly representable), write the color at
    destination `(destX + margin, destY + margin)` and advance `x` by
    blockSize.  Recursion is on explicit fuel; for `blockSize ≥ 1` the loop
    advances by at least 1 per iteration, so fuel `width + 1` (as passed by
    `restoreRows`) makes the fueled recursion equal to the C while loop. -/
def restoreCols (srcW srcH : Nat) (srcData : Nat → Nat) (blockSize : ℚ)
    (samplePointSize margin : Nat) (y : ℚ) (destY : Nat) :
    Nat → ℚ → Nat → TImage → TImage
  | 0, _, _, img => img
  | fuel + 1, x, destX, img =>
      if x < (srcW : ℚ) then
        restoreCols srcW srcH srcData blockSize samplePointSize margin y destY fuel
          (x + blockSize) (destX + 1)
          (setImagePixel img (destX + margin) (destY + margin)
            (averageColorForSampleSize samplePointSize
              (⌊x + blockSize / 2⌋).toNat (⌊y + blockSize / 2⌋).toNat srcW srcH srcData))
      else img

/-- Outer (y) loop of rePiX::restorePixelatedImage (rePiX.cpp lines
    306-311), fueled like `restoreCols`. -/
def restoreRows (srcW srcH : Nat) (srcData : Nat → Nat) (blockSize : ℚ)
    (samplePointSize margin : Nat) : Nat → ℚ → Nat → TImage → TImage
  | 0, _, _, img => img
  | fuel + 1, y, destY, img =>
      if y < (srcH : ℚ) then
        restoreRows srcW srcH srcData blockSize samplePointSize margin fuel
          (y + blockSize) (destY + 1)
          (restoreCols srcW srcH srcData blockSize samplePointSize margin y destY
            (srcW + 1) 0 0 img)
      else img

/-- rePiX::restorePixelatedImage (rePiX.cpp lines 292-312) in the default
    configuration with no target width/height override (width = height = 0;
    the override only recomputes blockSize before this code runs): allocate a
    zeroed pixmap of `floor(width / blockSize) + margin * 2` by
    `floor(height / blockSize) + margin * 2` (the C floor of the float
    quotient, then implicit truncation to int, equals the rational floor for
    exactly representable operands) and run the sampling loops over it. -/
def restorePixelatedImage (src : TImage) (blockSize : ℚ)
    (samplePointSize margin : Nat) : TImage :=
  restoreRows src.width src.height src.data blockSize samplePointSize margin
    (src.height + 1) 0 0
    (createPixmap ((⌊(src.width : ℚ) / blockSize⌋).toNat + margin * 2)
      ((⌊(src.height : ℚ) / blockSize⌋).toNat + margin * 2) 32)

/-- Pointwise update of the bucket table of normalizeColors, which maps a
    24-bit RGB key to its (count, baseColor) bucket. -/
def updPair (f : Nat → Nat × Nat) (i : Nat) (v : Nat × Nat) : Nat → Nat × Nat :=
  fun j => if j = i then v else f j

/-- Body of the normalizeColors double loop at pixel (x, y)
    (ImageAdjustments.cpp lines 119-135).  The state pairs the bucket table
    (calloc-zeroed at the start) with the pixel buffer.  `baseColor` is the
    C local copy `colors[i]` read before any write of this iteration, `key`
    its low 24 bits (`baseColor & 0xFFFFFF`).  If the bucket is already
    visited (count at least 1) nothing happens; otherwise the bucket is
    claimed (count incremented, baseColor stored) and the inner j-scan over
    the whole image recolors every other pixel within the threshold distance
    of `baseColor` to `baseColor`, counting it into the bucket. -/
def normalizeStep (w h threshold : Nat) (st : (Nat → Nat × Nat) × (Nat → Nat))
    (x y : Nat) : (Nat → Nat × Nat) × (Nat → Nat) :=
  if 1 ≤ (st.1 (st.2 (x + y * w) % 2 ^ 24)).1 then st
  else
    (List.range (w * h)).foldl
      (fun st2 j =>
        if colorDistance (st.2 (x + y * w)) (st2.2 j) < threshold ∧ j ≠ x + y * w then
          (updPair st2.1 (st.2 (x + y * w) % 2 ^ 24)
            ((st2.1 (st.2 (x + y * w) % 2 ^ 24)).1 + 1,
              (st2.1 (st.2 (x + y * w) % 2 ^ 24)).2),
            upd st2.2 j (st.2 (x + y * w)))
        else st2)
      (updPair st.1 (st.2 (x + y * w) % 2 ^ 24)
        ((st.1 (st.2 (x + y * w) % 2 ^ 24)).1 + 1, st.2 (x + y * w)), st.2)

/-- ImageAdjustments::normalizeColors (ImageAdjustments.cpp lines 110-139):
    sweep `normalizeStep` over the grid in row-major order, starting from the
    calloc-zeroed bucket table, and return the final pixel buffer. -/
def normalizeColors (w h threshold : Nat) (colors : Nat → Nat) : Nat → Nat :=
  ((List.range h).foldl (fun st y =>
    (List.range w).foldl (fun st2 x => normalizeStep w h threshold st2 x y) st)
    ((fun _ => (0, 0)), colors)).2

/-! ## Theorems -/

/-- The fueled Newton iteration agrees with the iteration of `Nat.sqrt`
    whenever the fuel is at least the starting guess. -/
theorem isqrtIter_eq (n : Nat) (fuel guess : Nat) (h : guess ≤ fuel) :
    isqrtIter n fuel guess = Nat.sqrt.iter n guess := by
  induction fuel generalizing guess with
  | zero =>
      have hg : guess = 0 := Nat.le_zero.mp h
      subst hg
      rw [Nat.sqrt.iter]
      simp [isqrtIter]
  | succ fuel ih =>
      rw [Nat.sqrt.iter]
      simp only [isqrtIter]
      by_cases hlt : (guess + n / guess) / 2 < guess
      · rw [if_pos hlt, dif_pos hlt, ih _ (by omega)]
      · rw [if_neg hlt, dif_neg hlt]

/-- `isqrt` is the integer square root. -/
theorem isqrt_eq_sqrt (n : Nat) : isqrt n = Nat.sqrt n := by
  unfold isqrt Nat.sqrt
  by_cases h : n ≤ 1
  · simp [h]
  · rw [if_neg h, if_neg h, isqrtIter_eq _ _ _ (Nat.div_le_self n 2)]

/-- Unfolding step of the palette scan. -/
theorem findNearest_succ (palt : Nat → Nat) (base m : Nat) :
    findNearest palt ((m + 1 : Nat) : Int) base =
      if colorDistance base (palt m) < (findNearest palt (m : Int) base).1 then
        (colorDistance base (palt m), palt m)
      else findNearest palt (m : Int) base := by
  simp only [findNearest, Int.toNat_natCast, List.range_succ, List.foldl_append,
    List.foldl_cons, List.foldl_nil]

/-- Characterization of the palette scan: either every scanned entry is at
    truncated distance at least 256 and the pixel color is kept, or the result
    is the first entry attaining the minimum truncated distance, that minimum
    being below 256. -/
theorem findNearest_spec (palt : Nat → Nat) (base : Nat) (n : Nat) :
    ((findNearest palt (n : Int) base).1 = 256 ∧
      (findNearest palt (n : Int) base).2 = base ∧
      ∀ j, j < n → 256 ≤ colorDistance base (palt j)) ∨
    ((findNearest palt (n : Int) base).1 < 256 ∧
      ∃ i, i < n ∧ (findNearest palt (n : Int) base).2 = palt i ∧
        (findNearest palt (n : Int) base).1 = colorDistance base (palt i) ∧
        (∀ j, j < n → colorDistance base (palt i) ≤ colorDistance base (palt j)) ∧
        (∀ j, j < i → colorDistance base (palt i) < colorDistance base (palt j))) := by
  induction n with
  | zero =>
      left
      refine ⟨?_, ?_, fun j hj => absurd hj (by omega)⟩ <;> simp [findNearest]
  | succ n ih =>
      rcases ih with ⟨h1, h2, h3⟩ | ⟨h1, i, hi, h2, h3, h4, h5⟩
      · rw [findNearest_succ, h1]
        by_cases hd : colorDistance base (palt n) < 256
        · rw [if_pos hd]
          right
          refine ⟨hd, n, Nat.lt_succ_self n, rfl, rfl, ?_, ?_⟩
          · intro j hj
            rcases Nat.lt_succ_iff_lt_or_eq.mp hj with hj | hj
            · exact le_of_lt (lt_of_lt_of_le hd (h3 j hj))
            · subst hj; exact le_refl _
          · intro j hj
            exact lt_of_lt_of_le hd (h3 j hj)
        · rw [if_neg hd]
          left
          refine ⟨h1, h2, fun j hj => ?_⟩
          rcases Nat.lt_succ_iff_lt_or_eq.mp hj with hj | hj
          · exact h3 j hj
          · subst hj; omega
      · rw [findNearest_succ]
        by_cases hd : colorDistance base (palt n) < (findNearest palt (n : Int) base).1
        · rw [if_pos hd]
          right
          rw [h3] at hd
          refine ⟨by omega, n, Nat.lt_succ_self n, rfl, rfl, ?_, ?_⟩
          · intro j hj
            rcases Nat.lt_succ_iff_lt_or_eq.mp hj with hj | hj
            · exact le_of_lt (lt_of_lt_of_le hd (h4 j hj))
            · subst hj; exact le_refl _
          · intro j hj
            exact lt_of_lt_of_le hd (h4 j hj)
        · rw [if_neg hd]
          rw [h3] at hd
          right
          refine ⟨h1, i, by omega, h2, h3, fun j hj => ?_, h5⟩
          rcases Nat.lt_succ_iff_lt_or_eq.mp hj with hj | hj
          · exact h4 j hj
          · subst hj; omega

/-- getD through a map, inside the length. -/
theorem getD_map (f : Nat → Nat) (l : List Nat) (k : Nat) (hk : k < l.length) :
    (l.map f).getD k 0 = f (l.getD k 0) := by
  induction l generalizing k with
  | nil => simp at hk
  | cons a l ih =>
      cases k with
      | zero => simp
      | succ k =>
          simp only [List.map_cons, List.getD_cons_succ]
          exact ih k (by simpa using hk)

/-- Claim C1, counterexample: for the pixel 0 (black) and the one-entry
    palette holding 0xFFFFFF (white), the unique (hence minimum-distance)
    entry is 0xFFFFFF, at truncated distance 441; since the scan starts from
    the sentinel distance 256 and only updates on a strictly smaller value,
    no entry is ever selected and the pixel is left at 0 instead of being
    replaced by the minimum-distance entry. -/
theorem mapColorsToNearestPalette_cap_counterexample :
    mapColorsToNearestPalette [0] (fun _ => 0xFFFFFF) 1 (-1) = [0] ∧
    colorDistance 0 0xFFFFFF = 441 ∧ (0 : Nat) ≠ 0xFFFFFF := by decide

/-- Claim C1 (amended): with transparency disabled, each pixel whose truncated
    integer Euclidean RGB distance to some scanned entry is below 256 is
    replaced by the first entry attaining the minimum truncated distance
    (so equidistant entries resolve to the lowest index, by the strict `<`);
    a pixel at truncated distance at least 256 from every scanned entry is
    left unchanged. -/
theorem mapColorsToNearestPalette_nearest (palt : Nat → Nat) (ps : Nat)
    (pixels : List Nat) (k : Nat) (hk : k < pixels.length) :
    ((∀ j, j < ps → 256 ≤ colorDistance (pixels.getD k 0) (palt j)) →
      (mapColorsToNearestPalette pixels palt (ps : Int) (-1)).getD k 0 = pixels.getD k 0) ∧
    (∀ i, i < ps → colorDistance (pixels.getD k 0) (palt i) < 256 →
      (∀ j, j < ps →
        colorDistance (pixels.getD k 0) (palt i) ≤ colorDistance (pixels.getD k 0) (palt j)) →
      (∀ j, j < i →
        colorDistance (pixels.getD k 0) (palt i) < colorDistance (pixels.getD k 0) (palt j)) →
      (mapColorsToNearestPalette pixels palt (ps : Int) (-1)).getD k 0 = palt i) := by
  rw [mapColorsToNearestPalette, getD_map _ _ _ hk]
  have hmap : ∀ c : Nat, mapPixel palt (ps : Int) (-1) c = (findNearest palt (ps : Int) c).2 := by
    intro c
    rw [mapPixel, if_neg]
    rintro ⟨h, -⟩
    exact absurd h (by decide)
  rw [hmap]
  constructor
  · intro hall
    rcases findNearest_spec palt (pixels.getD k 0) ps with ⟨-, h2, -⟩ | ⟨h1, i, hi, -, hd, -, -⟩
    · exact h2
    · rw [hd] at h1
      exact absurd h1 (by have := hall i hi; omega)
  · intro i hi hlt hmin hfirst
    rcases findNearest_spec palt (pixels.getD k 0) ps with ⟨-, -, h3⟩ | ⟨-, j, hj, h2, hd, h4, h5⟩
    · exact absurd hlt (by have := h3 i hi; omega)
    · have hij : j = i := by
        rcases Nat.lt_trichotomy j i with h | h | h
        · exact absurd (hfirst j h) (by have := h4 i hi; omega)
        · exact h
        · exact absurd (h5 i h) (by have := hmin j hj; omega)
      rw [h2, hij]

/-- Witness for the amended claim C1 at a concrete input: pixel 0 against the
    two-entry palette (5, 1); entry 1 is strictly closer, so the pixel becomes
    the value of entry 1. -/
theorem mapColorsToNearestPalette_nearest_witness :
    (mapColorsToNearestPalette [0] (fun n => if n = 0 then 5 else 1) ((2 : Nat) : Int)
      (-1)).getD 0 0 = (fun n : Nat => if n = 0 then 5 else 1) 1 :=
  (mapColorsToNearestPalette_nearest (fun n => if n = 0 then 5 else 1) 2 [0] 0
    (by decide)).2 1 (by decide) (by decide) (by decide) (by decide)

/-- Claim C2: when the transparency index is at least 0 and the matched color
    of the palette scan equals the table entry at that index, the pixel is
    written as the exact 32-bit value 0 (mapColorsToNearestPalette,
    ImageAdjustments.cpp lines 157-159). -/
theorem mapColorsToNearestPalette_transparency (palt : Nat → Nat) (ps tIdx : Int)
    (pixels : List Nat) (k : Nat) (hk : k < pixels.length) (ht : 0 ≤ tIdx)
    (hmatch : (findNearest palt ps (pixels.getD k 0)).2 = palt tIdx.toNat) :
    (mapColorsToNearestPalette pixels palt ps tIdx).getD k 0 = 0 := by
  rw [mapColorsToNearestPalette, getD_map _ _ _ hk, mapPixel, if_pos ⟨ht, hmatch⟩]

/-- Witness for claim C2 at a concrete input: the pixel 0x123456 matches the
    single palette entry 0x123456, which is also the transparency entry, so
    the output pixel is exactly 0. -/
theorem mapColorsToNearestPalette_transparency_witness :
    (mapColorsToNearestPalette [0x123456] (fun _ => 0x123456) 1 0).getD 0 0 = 0 :=
  mapColorsToNearestPalette_transparency (fun _ => 0x123456) 1 0 [0x123456] 0
    (by decide) (by decide) (by decide)

/-- Claim C9: with a palette in its default unloaded state (defined count 0,
    transparency index -1, as set by the ColorTable constructor), the palette
    scan never runs and the transparency substitution is disabled, so every
    pixel is written back unchanged. -/
theorem mapColorsToNearestPalette_empty (pixels : List Nat) (palt : Nat → Nat) :
    mapColorsToNearestPalette pixels palt 0 (-1) = pixels ∧
    normalizeColorsToColorTable pixels ColorTable.init = pixels := by
  have h : ∀ (p : Nat → Nat) (c : Nat), mapPixel p 0 (-1) c = c := by
    intro p c
    rw [mapPixel, if_neg]
    · simp [findNearest]
    · rintro ⟨h, -⟩
      exact absurd h (by decide)
  constructor
  · rw [mapColorsToNearestPalette, List.map_congr_left fun a _ => h palt a]
    simp
  · rw [normalizeColorsToColorTable, ColorTable.init, mapColorsToNearestPalette,
      List.map_congr_left fun a _ => h _ a]
    simp

/-- A foldl preserves any property preserved by each step on list members. -/
theorem foldl_preserve {α β : Type} (P : α → Prop) (f : α → β → α) (l : List β)
    (hstep : ∀ a b, b ∈ l → P a → P (f a b)) (a : α) (ha : P a) : P (l.foldl f a) := by
  induction l generalizing a with
  | nil => exact ha
  | cons b l ih =>
      exact ih (fun a2 c hc h2 => hstep a2 c (List.mem_cons_of_mem b hc) h2) _
        (hstep a b (List.mem_cons_self b l) ha)

/-- A guarded neighbor write preserves the outline invariant, provided the
    target is a legitimate outline target whenever the guard holds. -/
theorem markIfZero_inv (w h : Nat) (orig colors : Nat → Nat)
    (hinv : OutlineInv w h orig colors) (cond : Prop) [Decidable cond] (k : Nat)
    (hsrc : cond → outlineSource w h orig k) :
    OutlineInv w h orig (markIfZero colors cond k) := by
  intro j
  rw [markIfZero]
  split
  · next hc =>
      by_cases hj : j = k
      · subst hj
        right
        have horig : orig j = 0 := by
          rcases hinv j with he | ⟨-, hb, -⟩
          · rw [← he]; exact hc.2
          · rw [hc.2] at hb; exact absurd hb (by decide)
        exact ⟨horig, by simp [upd], hsrc hc.1⟩
      · rcases hinv j with he | ⟨h1, h2, h3⟩
        · left; rw [upd]; simp only [if_neg hj]; exact he
        · right; exact ⟨h1, by rw [upd]; simp only [if_neg hj]; exact h2, h3⟩
  · exact hinv j

/-- One pixel step of the outline sweep preserves the outline invariant. -/
theorem outlineStep_inv (w h : Nat) (orig colors : Nat → Nat) (x y : Nat)
    (hx : x < w) (hy : y < h) (hinv : OutlineInv w h orig colors) :
    OutlineInv w h orig (outlineStep w h colors x y) := by
  rw [outlineStep]
  by_cases h0 : colors (x + y * w) = 0
  · rw [if_pos h0]; exact hinv
  rw [if_neg h0]
  by_cases hB : colors (x + y * w) = 0xFF000000
  · rw [if_pos hB]; exact hinv
  rw [if_neg hB]
  have horig : orig (x + y * w) ≠ 0 ∧ orig (x + y * w) ≠ 0xFF000000 := by
    rcases hinv (x + y * w) with he | ⟨-, hb, -⟩
    · rw [← he]; exact ⟨h0, hB⟩
    · exact absurd hb hB
  exact markIfZero_inv w h orig _
    (markIfZero_inv w h orig _
      (markIfZero_inv w h orig _
        (markIfZero_inv w h orig _ hinv _ _
          (fun hc => ⟨x, y, hx, hy, horig.1, horig.2, Or.inl ⟨hc, rfl⟩⟩)) _ _
        (fun hc => ⟨x, y, hx, hy, horig.1, horig.2, Or.inr (Or.inl ⟨hc, rfl⟩)⟩)) _ _
      (fun hc => ⟨x, y, hx, hy, horig.1, horig.2, Or.inr (Or.inr (Or.inl ⟨hc, rfl⟩))⟩)) _ _
    (fun hc => ⟨x, y, hx, hy, horig.1, horig.2, Or.inr (Or.inr (Or.inr ⟨hc, rfl⟩))⟩)

/-- The full outline sweep satisfies the outline invariant with respect to the
    buffer it started from. -/
theorem applyOutline_inv (w h : Nat) (colors : Nat → Nat) :
    OutlineInv w h colors (applyOutline w h colors) := by
  rw [applyOutline]
  refine foldl_preserve (OutlineInv w h colors) _ _ ?_ _ (fun j => Or.inl rfl)
  intro cs y hy hin
  refine foldl_preserve (OutlineInv w h colors) _ _ ?_ _ hin
  intro cs2 x hx hin2
  exact outlineStep_inv w h colors cs2 x y (List.mem_range.mp hx) (List.mem_range.mp hy) hin2

/-- Claim C3: applyOutline never modifies a pixel that was non-zero before the
    pass began; every pixel that changes was 0, is set to opaque black
    0xFF000000, and is an in-bounds 4-connected orthogonal neighbor of a pixel
    whose color before the pass was neither 0 nor opaque black. -/
theorem applyOutline_frame (w h : Nat) (colors : Nat → Nat) (k : Nat) :
    (colors k ≠ 0 → applyOutline w h colors k = colors k) ∧
    (applyOutline w h colors k ≠ colors k →
      colors k = 0 ∧ applyOutline w h colors k = 0xFF000000 ∧
      outlineSource w h colors k) := by
  have hinv := applyOutline_inv w h colors k
  constructor
  · intro hk
    rcases hinv with he | ⟨h1, -, -⟩
    · exact he
    · exact absurd h1 hk
  · intro hne
    rcases hinv with he | hgood
    · exact absurd he hne
    · exact hgood

/-- Witness for claim C3 on the concrete 3-by-1 buffer (0, 0x12345678, 0):
    the non-zero middle pixel is unchanged, while the zero pixel at index 0
    changes to opaque black and indeed neighbors the middle pixel. -/
theorem applyOutline_frame_witness :
    applyOutline 3 1 (fun i => if i = 1 then 0x12345678 else 0) 1 =
      (fun i => if i = 1 then 0x12345678 else 0 : Nat → Nat) 1 ∧
    ((fun i => if i = 1 then 0x12345678 else 0 : Nat → Nat) 0 = 0 ∧
      applyOutline 3 1 (fun i => if i = 1 then 0x12345678 else 0) 0 = 0xFF000000 ∧
      outlineSource 3 1 (fun i => if i = 1 then 0x12345678 else 0) 0) :=
  ⟨(applyOutline_frame 3 1 (fun i => if i = 1 then 0x12345678 else 0) 1).1 (by decide),
   (applyOutline_frame 3 1 (fun i => if i = 1 then 0x12345678 else 0) 0).2 (by decide)⟩

/-- Packing four bytes with shifted bitwise or equals the corresponding sum
    when the three low fields are in range. -/
theorem pack_eq_add (a r g b : Nat) (hr : r < 256) (hg : g < 256) (hb : b < 256) :
    (a <<< 24) ||| (r <<< 16) ||| (g <<< 8) ||| b =
      a * 2 ^ 24 + r * 2 ^ 16 + g * 2 ^ 8 + b := by
  rw [Nat.shiftLeft_eq, Nat.shiftLeft_eq, Nat.shiftLeft_eq]
  have e1 : a * 2 ^ 24 ||| r * 2 ^ 16 = a * 2 ^ 24 + r * 2 ^ 16 := by
    rw [Nat.mul_comm a (2 ^ 24), ← Nat.mul_add_lt_is_or (by omega) a]
  have e2 : a * 2 ^ 24 + r * 2 ^ 16 ||| g * 2 ^ 8 = a * 2 ^ 24 + r * 2 ^ 16 + g * 2 ^ 8 := by
    rw [show a * 2 ^ 24 + r * 2 ^ 16 = 2 ^ 16 * (a * 2 ^ 8 + r) by ring,
      ← Nat.mul_add_lt_is_or (by omega) (a * 2 ^ 8 + r)]
  have e3 : a * 2 ^ 24 + r * 2 ^ 16 + g * 2 ^ 8 ||| b =
      a * 2 ^ 24 + r * 2 ^ 16 + g * 2 ^ 8 + b := by
    rw [show a * 2 ^ 24 + r * 2 ^ 16 + g * 2 ^ 8 = 2 ^ 8 * (a * 2 ^ 16 + r * 2 ^ 8 + g) by ring,
      ← Nat.mul_add_lt_is_or (by omega) (a * 2 ^ 16 + r * 2 ^ 8 + g)]
  rw [e1, e2, e3]

/-- Red byte of a packed value. -/
theorem red_pack (a r g b : Nat) (hr : r < 256) (hg : g < 256) (hb : b < 256) :
    red (a * 2 ^ 24 + r * 2 ^ 16 + g * 2 ^ 8 + b) = r := by
  rw [red]
  omega

/-- Green byte of a packed value. -/
theorem green_pack (a r g b : Nat) (_hr : r < 256) (hg : g < 256) (hb : b < 256) :
    green (a * 2 ^ 24 + r * 2 ^ 16 + g * 2 ^ 8 + b) = g := by
  rw [green]
  omega

/-- Blue byte of a packed value. -/
theorem blue_pack (a r g b : Nat) (_hr : r < 256) (_hg : g < 256) (hb : b < 256) :
    blue (a * 2 ^ 24 + r * 2 ^ 16 + g * 2 ^ 8 + b) = b := by
  rw [blue]
  omega

/-- Channel extractions are bytes. -/
theorem red_lt (c : Nat) : red c < 256 := Nat.mod_lt _ (by norm_num)

theorem green_lt (c : Nat) : green c < 256 := Nat.mod_lt _ (by norm_num)

theorem blue_lt (c : Nat) : blue c < 256 := Nat.mod_lt _ (by norm_num)

/-- The rational posterize channel map agrees with its integer form for
    `levels ≥ 2`. -/
theorem postorizeChannelByte_eq (c L : Nat) (hL : 2 ≤ L) :
    postorizeChannelByte c L = postorizeByteInt c L := by
  have h1 : ((L : ℚ) - 1) = ((L - 1 : Nat) : ℚ) := by
    have hL1 : (1 : ℕ) ≤ L := by omega
    rw [Nat.cast_sub hL1, Nat.cast_one]
  rw [postorizeChannelByte, postorizeChannel, round0, h1]
  have e1 : (c : ℚ) / 255 / (1 / ((L - 1 : Nat) : ℚ)) + 1 / 2
      = (((2 * c * (L - 1) + 255 : Nat) : Int) : ℚ) / ((510 : Nat) : ℚ) := by
    field_simp
    ring
  rw [e1, Rat.floor_intCast_div_natCast, ← Int.natCast_div]
  have e2 : ((((2 * c * (L - 1) + 255) / 510 : Nat) : Int) : ℚ) * (1 / ((L - 1 : Nat) : ℚ)) * 255
      = (((255 * ((2 * c * (L - 1) + 255) / 510) : Nat) : Int) : ℚ) / ((L - 1 : Nat) : ℚ) := by
    push_cast
    ring
  rw [e2, Rat.floor_intCast_div_natCast, ← Int.natCast_div]
  rw [postorizeByteInt]
  exact Int.toNat_natCast _

/-- The integer posterize channel map sends bytes to bytes for `levels ≥ 2`. -/
theorem postorizeByteInt_le (c L : Nat) (hL : 2 ≤ L) (hc : c < 256) :
    postorizeByteInt c L < 256 := by
  rw [postorizeByteInt]
  have h1 : (2 * c * (L - 1) + 255) / 510 ≤ L - 1 := by
    calc (2 * c * (L - 1) + 255) / 510 ≤ (510 * (L - 1) + 255) / 510 := by
          apply Nat.div_le_div_right
          have : 2 * c * (L - 1) ≤ 510 * (L - 1) := Nat.mul_le_mul_right _ (by omega)
          omega
      _ = L - 1 := by rw [Nat.mul_add_div (by omega)]; omega
  calc 255 * ((2 * c * (L - 1) + 255) / 510) / (L - 1) ≤ 255 * (L - 1) / (L - 1) :=
        Nat.div_le_div_right (Nat.mul_le_mul_left 255 h1)
    _ = 255 := Nat.mul_div_cancel 255 (show 0 < L - 1 by omega)
    _ < 256 := by omega

set_option maxRecDepth 100000 in
/-- Idempotence of the integer channel map for quantization steps that are
    exact powers of two (levels 2, 3, 5, 9, 17, 33, 65, 129), checked on all
    byte values. -/
theorem postorizeByteInt_pow2_idem : ∀ j, j < 8 → ∀ c, c < 256 →
    postorizeByteInt (postorizeByteInt c (2 ^ j + 1)) (2 ^ j + 1) =
      postorizeByteInt c (2 ^ j + 1) := by decide

/-- One posterize pass on a pixel, in closed integer form: alpha forced to
    255 and each channel byte mapped through the integer channel map. -/
theorem postorizePixel_eq (x L : Nat) (hL : 2 ≤ L) :
    postorizePixel x L = 255 * 2 ^ 24 + postorizeByteInt (red x) L * 2 ^ 16 +
      postorizeByteInt (green x) L * 2 ^ 8 + postorizeByteInt (blue x) L := by
  have fold : ∀ c : Nat, (⌊postorizeChannel ((c : ℚ) / 255) L * 255⌋).toNat =
      postorizeByteInt c L := fun c => postorizeChannelByte_eq c L hL
  rw [postorizePixel, convertToPackedRGB]
  simp only [posterizeRGB, convertFromPackedRGB]
  rw [fold, fold, fold]
  rw [show ((⌊(1 : ℚ) * 255⌋).toNat) = 255 by norm_num; decide]
  exact pack_eq_add 255 _ _ _ (postorizeByteInt_le _ _ hL (red_lt x))
    (postorizeByteInt_le _ _ hL (green_lt x)) (postorizeByteInt_le _ _ hL (blue_lt x))

/-- Claim C4, counterexample: posterize is not idempotent.  With levels = 200
    the pixel 0x00000004 posterizes to 0xFF000003 and posterizing again gives
    0xFF000002.  (In the float code the intermediate values for these inputs,
    4/255 / (1/199) = 3.1216... and 3 * (1/199) * 255 = 3.8442..., lie far
    from the rounding and truncation boundaries relative to single-precision
    error, so the float computation produces the same bytes.) -/
theorem postorize_not_idempotent :
    postorize (postorize [4] 200) 200 ≠ postorize [4] 200 := by
  have h1 : postorizePixel 4 200 = 0xFF000003 := by
    rw [postorizePixel_eq 4 200 (by omega)]
    decide
  have h2 : postorizePixel 0xFF000003 200 = 0xFF000002 := by
    rw [postorizePixel_eq _ _ (by omega)]
    decide
  simp only [postorize, List.map_cons, List.map_nil, h1, h2]
  decide

/-- Claim C4 (amended): posterize is idempotent for quantization levels whose
    step 1/(levels-1) is an exact (single-precision-representable) power of
    two, i.e. levels = 2^j + 1 for j < 8: applying posterize twice with such
    a levels value equals applying it once, on every pixel buffer.  For
    general levels idempotence fails (see the counterexample at levels =
    200). -/
theorem postorize_idempotent_pow2 (pixels : List Nat) (j : Nat) (hj : j < 8) :
    postorize (postorize pixels (2 ^ j + 1)) (2 ^ j + 1) = postorize pixels (2 ^ j + 1) := by
  have hL : 2 ≤ 2 ^ j + 1 := by
    have := Nat.one_le_two_pow (n := j)
    omega
  simp only [postorize, List.map_map]
  apply List.map_congr_left
  intro x _
  show postorizePixel (postorizePixel x (2 ^ j + 1)) (2 ^ j + 1) =
    postorizePixel x (2 ^ j + 1)
  have hbr := postorizeByteInt_le (red x) _ hL (red_lt x)
  have hbg := postorizeByteInt_le (green x) _ hL (green_lt x)
  have hbb := postorizeByteInt_le (blue x) _ hL (blue_lt x)
  rw [postorizePixel_eq x _ hL, postorizePixel_eq _ _ hL]
  rw [red_pack _ _ _ _ hbr hbg hbb, green_pack _ _ _ _ hbr hbg hbb,
    blue_pack _ _ _ _ hbr hbg hbb]
  rw [postorizeByteInt_pow2_idem j hj _ (red_lt x),
    postorizeByteInt_pow2_idem j hj _ (green_lt x),
    postorizeByteInt_pow2_idem j hj _ (blue_lt x)]

/-- Witness for the amended claim C4: a double posterize at levels 5 on a
    concrete pixel equals a single posterize. -/
theorem postorize_idempotent_pow2_witness :
    postorize (postorize [0x11223344] (2 ^ 2 + 1)) (2 ^ 2 + 1) =
      postorize [0x11223344] (2 ^ 2 + 1) :=
  postorize_idempotent_pow2 [0x11223344] 2 (by decide)

/-- Two base-B digit decompositions with low digits below B agree
    componentwise. -/
theorem addMul_inj (B a1 b1 a2 b2 : Nat) (h1 : a1 < B) (h2 : a2 < B)
    (heq : a1 + b1 * B = a2 + b2 * B) : a1 = a2 ∧ b1 = b2 := by
  have hm : (a1 + b1 * B) % B = (a2 + b2 * B) % B := by rw [heq]
  rw [Nat.add_mul_mod_self_right, Nat.add_mul_mod_self_right,
    Nat.mod_eq_of_lt h1, Nat.mod_eq_of_lt h2] at hm
  refine ⟨hm, ?_⟩
  rw [hm] at heq
  exact Nat.eq_of_mul_eq_mul_right (by omega) (Nat.add_left_cancel heq)

/-- Value after a run of writes at consecutive indices. -/
theorem writeRow_apply (d : Nat → Nat) (c base n k : Nat) :
    ((List.range n).foldl (fun d2 sx => upd d2 (base + sx) c) d) k =
      if base ≤ k ∧ k < base + n then c else d k := by
  induction n with
  | zero =>
      simp only [List.range_zero, List.foldl_nil]
      rw [if_neg (by omega)]
  | succ n ih =>
      rw [List.range_succ, List.foldl_append, List.foldl_cons, List.foldl_nil]
      simp only [upd]
      by_cases hk : k = base + n
      · rw [if_pos hk, if_pos (by omega)]
      · rw [if_neg hk, ih]
        by_cases h2 : base ≤ k ∧ k < base + n
        · rw [if_pos h2, if_pos (by omega)]
        · rw [if_neg h2, if_neg (by omega)]

/-- Value after a run of writes whose index is given in the split
    column-plus-row form used by the scaling loop. -/
theorem writeRowIdx_apply (d : Nat → Nat) (c xs Y W n k : Nat) :
    ((List.range n).foldl (fun d2 sx => upd d2 ((xs + sx) + Y * W) c) d) k =
      if xs + Y * W ≤ k ∧ k < xs + Y * W + n then c else d k := by
  have hrw : (fun d2 sx => upd d2 ((xs + sx) + Y * W) c) =
      (fun d2 sx => upd d2 ((xs + Y * W) + sx) c) := by
    funext d2 sx
    rw [show (xs + sx) + Y * W = (xs + Y * W) + sx by ring]
  rw [hrw, writeRow_apply]

/-- A scale-by-scale block write leaves untouched indices unchanged. -/
theorem blockRows_frame (d : Nat → Nat) (c xs ys scale W n k : Nat)
    (hmiss : ∀ sy, sy < n →
      ¬(xs + (ys + sy) * W ≤ k ∧ k < xs + (ys + sy) * W + scale)) :
    ((List.range n).foldl (fun d3 sy =>
      (List.range scale).foldl (fun d4 sx => upd d4 ((xs + sx) + (ys + sy) * W) c) d3) d) k
      = d k := by
  refine foldl_preserve (fun d2 : Nat → Nat => d2 k = d k) _ _ ?_ _ rfl
  intro d3 sy hsy hP
  rw [writeRowIdx_apply, if_neg (hmiss sy (List.mem_range.mp hsy))]
  exact hP

/-- A scale-by-scale block write sets every index of the block to its color. -/
theorem blockRows_hit (d : Nat → Nat) (c xs ys scale W n sx0 sy0 : Nat)
    (hsx : sx0 < scale) (hsy : sy0 < n) (hxW : xs + scale ≤ W) :
    ((List.range n).foldl (fun d3 sy =>
      (List.range scale).foldl (fun d4 sx => upd d4 ((xs + sx) + (ys + sy) * W) c) d3) d)
      ((xs + sx0) + (ys + sy0) * W) = c := by
  induction n with
  | zero => exact absurd hsy (by omega)
  | succ n ih =>
      rw [List.range_succ, List.foldl_append, List.foldl_cons, List.foldl_nil]
      by_cases hcase : sy0 = n
      · subst hcase
        rw [writeRowIdx_apply, if_pos (by omega)]
      · have hsy2 : sy0 < n := by omega
        rw [writeRowIdx_apply, if_neg ?_, ih hsy2]
        intro hcon
        obtain ⟨hc1, hc2⟩ := hcon
        obtain ⟨-, hyeq⟩ := addMul_inj W (xs + sx0) (ys + sy0)
          (xs + ((xs + sx0) + (ys + sy0) * W - (xs + (ys + n) * W))) (ys + n)
          (by omega) (by omega) (by omega)
        omega

/-- A row of block writes leaves indices outside all its blocks unchanged. -/
theorem rowBlocks_frame (d : Nat → Nat) (f : Nat → Nat) (ys scale W n k : Nat)
    (hmiss : ∀ x sy, x < n → sy < scale →
      ¬(x * scale + (ys + sy) * W ≤ k ∧ k < x * scale + (ys + sy) * W + scale)) :
    ((List.range n).foldl (fun d2 x =>
      (List.range scale).foldl (fun d3 sy =>
        (List.range scale).foldl (fun d4 sx =>
          upd d4 ((x * scale + sx) + (ys + sy) * W) (f x)) d3) d2) d) k = d k := by
  refine foldl_preserve (fun d2 : Nat → Nat => d2 k = d k) _ _ ?_ _ rfl
  intro d2 x hx hP
  rw [blockRows_frame _ _ _ _ _ _ _ _ (fun sy hsy => hmiss x sy (List.mem_range.mp hx) hsy)]
  exact hP

/-- A row of block writes sets each index of its x0-th block to that block's
    color. -/
theorem rowBlocks_hit (d : Nat → Nat) (f : Nat → Nat) (ys scale W n x0 sx0 sy0 : Nat)
    (hsx : sx0 < scale) (hsy : sy0 < scale) (hx0 : x0 < n) (hnW : n * scale ≤ W) :
    ((List.range n).foldl (fun d2 x =>
      (List.range scale).foldl (fun d3 sy =>
        (List.range scale).foldl (fun d4 sx =>
          upd d4 ((x * scale + sx) + (ys + sy) * W) (f x)) d3) d2) d)
      ((x0 * scale + sx0) + (ys + sy0) * W) = f x0 := by
  induction n with
  | zero => exact absurd hx0 (by omega)
  | succ n ih =>
      rw [List.range_succ, List.foldl_append, List.foldl_cons, List.foldl_nil]
      rw [Nat.succ_mul] at hnW
      have hx0W : x0 * scale + scale ≤ W := by
        have h1 : (x0 + 1) * scale ≤ (n + 1) * scale :=
          Nat.mul_le_mul_right _ (by omega)
        rw [Nat.succ_mul, Nat.succ_mul] at h1
        omega
      by_cases hcase : x0 = n
      · subst hcase
        exact blockRows_hit _ _ _ _ _ _ _ _ _ hsx hsy hx0W
      · have hx02 : x0 < n := by omega
        rw [blockRows_frame _ _ _ _ _ _ _ _ ?_, ih hx02 (by omega)]
        intro sy hsy2 hcon
        obtain ⟨hc1, hc2⟩ := hcon
        have hxa : x0 * scale + sx0 < W := by omega
        obtain ⟨hxeq, -⟩ := addMul_inj W (x0 * scale + sx0) (ys + sy0)
          (n * scale + ((x0 * scale + sx0) + (ys + sy0) * W - (n * scale + (ys + sy) * W)))
          (ys + sy) hxa (by omega) (by omega)
        obtain ⟨-, hfin⟩ := addMul_inj scale sx0 x0
          ((x0 * scale + sx0) + (ys + sy0) * W - (n * scale + (ys + sy) * W)) n
          hsx (by omega) (by omega)
        omega

/-- All rows of the scaling loop: the pixel of block (x0, y0) at block offset
    (sx0, sy0) holds the source color of (x0, y0). -/
theorem allRows_hit (image : TImage) (scale : Nat) (d : Nat → Nat) (n x0 y0 sx0 sy0 : Nat)
    (hsx : sx0 < scale) (hsy : sy0 < scale) (hx0 : x0 < image.width) (hy0 : y0 < n) :
    ((List.range n).foldl (fun d2 y =>
      (List.range image.width).foldl (fun d3 x =>
        (List.range scale).foldl (fun d4 sy =>
          (List.range scale).foldl (fun d5 sx =>
            upd d5 ((x * scale + sx) + (y * scale + sy) * (image.width * scale))
              (image.data (y * image.width + x))) d4) d3) d2) d)
      ((x0 * scale + sx0) + (y0 * scale + sy0) * (image.width * scale)) =
    image.data (y0 * image.width + x0) := by
  induction n with
  | zero => exact absurd hy0 (by omega)
  | succ n ih =>
      rw [List.range_succ, List.foldl_append, List.foldl_cons, List.foldl_nil]
      have hWx : x0 * scale + sx0 < image.width * scale := by
        have h1 : (x0 + 1) * scale ≤ image.width * scale :=
          Nat.mul_le_mul_right _ (by omega)
        rw [Nat.succ_mul] at h1
        omega
      by_cases hcase : y0 = n
      · subst hcase
        exact rowBlocks_hit _ _ (y0 * scale) scale (image.width * scale) image.width
          x0 sx0 sy0 hsx hsy hx0 (le_refl _)
      · have hy02 : y0 < n := by omega
        rw [rowBlocks_frame _ _ (n * scale) scale (image.width * scale) image.width _ ?_,
          ih hy02]
        intro x sy hx hsy2 hcon
        obtain ⟨hc1, hc2⟩ := hcon
        have hWx2 : x * scale +
            ((x0 * scale + sx0) + (y0 * scale + sy0) * (image.width * scale) -
              (x * scale + (n * scale + sy) * (image.width * scale))) <
            image.width * scale := by
          have h1 : (x + 1) * scale ≤ image.width * scale :=
            Nat.mul_le_mul_right _ (by omega)
          rw [Nat.succ_mul] at h1
          omega
        obtain ⟨-, hyeq⟩ := addMul_inj (image.width * scale)
          (x0 * scale + sx0) (y0 * scale + sy0)
          (x * scale +
            ((x0 * scale + sx0) + (y0 * scale + sy0) * (image.width * scale) -
              (x * scale + (n * scale + sy) * (image.width * scale))))
          (n * scale + sy) hWx hWx2 (by omega)
        obtain ⟨-, hfin⟩ := addMul_inj scale sy0 y0 sy n hsy hsy2 (by omega)
        omega

/-- Pixel-level characterization of scaledData: destination pixel (X, Y)
    holds source pixel (X / scale, Y / scale). -/
theorem scaledData_apply (image : TImage) (scale : Nat) (hs : 0 < scale) (X Y : Nat)
    (hX : X < image.width * scale) (hY : Y < image.height * scale) :
    scaledData image scale (X + Y * (image.width * scale)) =
      image.data ((Y / scale) * image.width + X / scale) := by
  have hX2 : X / scale < image.width := by
    rw [Nat.div_lt_iff_lt_mul hs]
    exact hX
  have hY2 : Y / scale < image.height := by
    rw [Nat.div_lt_iff_lt_mul hs]
    exact hY
  have hdmX : (X / scale) * scale + X % scale = X := by
    rw [Nat.mul_comm]
    exact Nat.div_add_mod X scale
  have hdmY : (Y / scale) * scale + Y % scale = Y := by
    rw [Nat.mul_comm]
    exact Nat.div_add_mod Y scale
  have hidx : X + Y * (image.width * scale) =
      ((X / scale) * scale + X % scale) +
        ((Y / scale) * scale + Y % scale) * (image.width * scale) := by
    rw [hdmX, hdmY]
  rw [hidx]
  simp only [scaledData]
  exact allRows_hit image scale _ image.height (X / scale) (Y / scale) (X % scale)
    (Y % scale) (Nat.mod_lt _ hs) (Nat.mod_lt _ hs) hX2 hY2

/-- The color multiset of the scaled image is the source multiset with every
    multiplicity multiplied by the square of the factor. -/
theorem colorCount_scaled (image : TImage) (scale : Nat) (hs : 0 < scale) (c : Nat) :
    colorCount (scaledImageOf image scale) c = scale ^ 2 * colorCount image c := by
  have hdiv : ∀ u v : Nat, v < scale → (u * scale + v) / scale = u := by
    intro u v hv
    rw [show u * scale + v = v + scale * u by ring, Nat.add_mul_div_left _ _ hs,
      Nat.div_eq_of_lt hv, Nat.zero_add]
  have hmod : ∀ u v : Nat, v < scale → (u * scale + v) % scale = v := by
    intro u v hv
    rw [show u * scale + v = v + u * scale by ring, Nat.add_mul_mod_self_right,
      Nat.mod_eq_of_lt hv]
  have hlt : ∀ u v bound : Nat, u < bound → v < scale → u * scale + v < bound * scale := by
    intro u v bound hu hv
    have h1 : (u + 1) * scale ≤ bound * scale := Nat.mul_le_mul_right _ (by omega)
    rw [Nat.succ_mul] at h1
    omega
  simp only [colorCount, scaledImageOf]
  have hbij :
      ((Finset.range (image.height * scale) ×ˢ Finset.range (image.width * scale)).filter
        (fun p => scaledData image scale (p.1 * (image.width * scale) + p.2) = c)).card =
      (((Finset.range image.height ×ˢ Finset.range image.width).filter
        (fun p => image.data (p.1 * image.width + p.2) = c)) ×ˢ
        (Finset.range scale ×ˢ Finset.range scale)).card := by
    apply Finset.card_nbij'
      (i := fun p => ((p.1 / scale, p.2 / scale), (p.1 % scale, p.2 % scale)))
      (j := fun q => (q.1.1 * scale + q.2.1, q.1.2 * scale + q.2.2))
    · rintro ⟨Y, X⟩ hp
      simp only [Finset.mem_filter, Finset.mem_product, Finset.mem_range] at hp ⊢
      obtain ⟨⟨hY, hX⟩, hdata⟩ := hp
      rw [show Y * (image.width * scale) + X = X + Y * (image.width * scale) by ring,
        scaledData_apply image scale hs X Y hX hY] at hdata
      exact ⟨⟨⟨by rw [Nat.div_lt_iff_lt_mul hs]; exact hY,
        by rw [Nat.div_lt_iff_lt_mul hs]; exact hX⟩, hdata⟩,
        Nat.mod_lt _ hs, Nat.mod_lt _ hs⟩
    · rintro ⟨⟨y, x⟩, a, b⟩ hq
      simp only [Finset.mem_filter, Finset.mem_product, Finset.mem_range] at hq ⊢
      obtain ⟨⟨⟨hy, hx⟩, hdata⟩, ha, hb⟩ := hq
      refine ⟨⟨hlt y a _ hy ha, hlt x b _ hx hb⟩, ?_⟩
      rw [show (y * scale + a) * (image.width * scale) + (x * scale + b) =
        (x * scale + b) + (y * scale + a) * (image.width * scale) by ring,
        scaledData_apply image scale hs _ _ (hlt x b _ hx hb) (hlt y a _ hy ha),
        hdiv y a ha, hdiv x b hb]
      exact hdata
    · rintro ⟨Y, X⟩ hp
      simp only []
      rw [Nat.mul_comm (Y / scale) scale]
      rw [Nat.mul_comm (X / scale) scale]
      rw [Nat.div_add_mod, Nat.div_add_mod]
    · rintro ⟨⟨y, x⟩, a, b⟩ hq
      simp only [Finset.mem_product, Finset.mem_range] at hq
      obtain ⟨-, ha, hb⟩ := hq
      simp only []
      rw [hdiv y a ha, hdiv x b hb, hmod y a ha, hmod x b hb]
  rw [hbij, Finset.card_product, Finset.card_product, Finset.card_range]
  ring

/-- Claim C5: for factor at least 1 and a 32-bit input, scale succeeds,
    produces a width*factor by height*factor buffer in which destination
    pixel (X, Y) equals source pixel (X div factor, Y div factor), and every
    color occurs exactly factor^2 times as often as in the source. -/
theorem scaleImage_spec (image : TImage) (factor : Nat) (hf : 1 ≤ factor)
    (hbw : image.bitWidth = 32) :
    scaleImage image factor = some (scaledImageOf image factor) ∧
    (scaledImageOf image factor).width = image.width * factor ∧
    (scaledImageOf image factor).height = image.height * factor ∧
    (∀ X Y, X < image.width * factor → Y < image.height * factor →
      (scaledImageOf image factor).data (X + Y * (image.width * factor)) =
        image.data ((Y / factor) * image.width + X / factor)) ∧
    (∀ c, colorCount (scaledImageOf image factor) c = factor ^ 2 * colorCount image c) := by
  refine ⟨?_, rfl, rfl, ?_, ?_⟩
  · rw [scaleImage, if_neg (by simp [hbw])]
  · intro X Y hX hY
    exact scaledData_apply image factor (by omega) X Y hX hY
  · intro c
    exact colorCount_scaled image factor (by omega) c

/-- Witness for claim C5: a 1x2 image with pixels 100 and 101 scaled by 2;
    the theorem yields the success result, a concrete replicated pixel, and
    the quadrupled count of color 101. -/
theorem scaleImage_spec_witness :
    scaleImage ⟨1, 2, 32, fun i => 100 + i⟩ 2 =
      some (scaledImageOf ⟨1, 2, 32, fun i => 100 + i⟩ 2) ∧
    (scaledImageOf ⟨1, 2, 32, fun i => 100 + i⟩ 2).data (1 + 3 * (1 * 2)) =
      (⟨1, 2, 32, fun i => 100 + i⟩ : TImage).data ((3 / 2) * 1 + 1 / 2) ∧
    colorCount (scaledImageOf ⟨1, 2, 32, fun i => 100 + i⟩ 2) 101 =
      2 ^ 2 * colorCount ⟨1, 2, 32, fun i => 100 + i⟩ 101 :=
  ⟨(scaleImage_spec ⟨1, 2, 32, fun i => 100 + i⟩ 2 (by decide) rfl).1,
   (scaleImage_spec ⟨1, 2, 32, fun i => 100 + i⟩ 2 (by decide) rfl).2.2.2.1 1 3
     (by decide) (by decide),
   (scaleImage_spec ⟨1, 2, 32, fun i => 100 + i⟩ 2 (by decide) rfl).2.2.2.2 101⟩

/-- Claim C6: scale returns the null result exactly when the input is not
    32 bits per pixel; on 32-bit input it returns the scaled buffer
    (allocation is assumed to succeed in the model). -/
theorem scaleImage_bitWidth_check (image : TImage) (scale : Nat) :
    (image.bitWidth ≠ 32 → scaleImage image scale = none) ∧
    (image.bitWidth = 32 → scaleImage image scale = some (scaledImageOf image scale)) := by
  constructor
  · intro h
    rw [scaleImage, if_pos h]
  · intro h
    rw [scaleImage, if_neg (by simp [h])]

/-- Witness for claim C6: a 24-bit image is rejected; a 32-bit one accepted. -/
theorem scaleImage_bitWidth_check_witness :
    scaleImage ⟨1, 1, 24, fun _ => 0⟩ 2 = none ∧
    scaleImage ⟨1, 1, 32, fun _ => 7⟩ 2 = some (scaledImageOf ⟨1, 1, 32, fun _ => 7⟩ 2) :=
  ⟨(scaleImage_bitWidth_check ⟨1, 1, 24, fun _ => 0⟩ 2).1 (by decide),
   (scaleImage_bitWidth_check ⟨1, 1, 32, fun _ => 7⟩ 2).2 rfl⟩

/-- setImagePixel preserves the image dimensions. -/
theorem setImagePixel_dims (img : TImage) (x y c : Nat) :
    (setImagePixel img x y c).width = img.width ∧
    (setImagePixel img x y c).height = img.height := by
  rw [setImagePixel]
  split <;> exact ⟨rfl, rfl⟩

/-- A bounds-checked write does not affect a grid cell with different
    coordinates. -/
theorem setImagePixel_data_ne (img : TImage) (x y c X Y : Nat) (hX : X < img.width)
    (hne : ¬(x = X ∧ y = Y)) :
    (setImagePixel img x y c).data (X + Y * img.width) = img.data (X + Y * img.width) := by
  rw [setImagePixel]
  split
  · rfl
  · next hin =>
      have hx : x < img.width := by omega
      simp only [upd]
      rw [if_neg]
      intro hidx
      obtain ⟨h1, h2⟩ := addMul_inj img.width X Y x y hX hx hidx
      exact hne ⟨h1.symm, h2.symm⟩

/-- An in-bounds write sets its own grid cell. -/
theorem setImagePixel_data_eq (img : TImage) (x y c : Nat) (hx : x < img.width)
    (hy : y < img.height) :
    (setImagePixel img x y c).data (x + y * img.width) = c := by
  rw [setImagePixel, if_neg (by omega)]
  simp [upd]

/-- The column loop preserves the image dimensions. -/
theorem restoreCols_dims (srcW srcH : Nat) (srcData : Nat → Nat) (bs : ℚ)
    (sps margin : Nat) (y : ℚ) (destY fuel : Nat) (x : ℚ) (destX : Nat) (img : TImage) :
    (restoreCols srcW srcH srcData bs sps margin y destY fuel x destX img).width = img.width ∧
    (restoreCols srcW srcH srcData bs sps margin y destY fuel x destX img).height =
      img.height := by
  induction fuel generalizing x destX img with
  | zero => exact ⟨rfl, rfl⟩
  | succ fuel ih =>
      rw [restoreCols]
      split
      · rw [(ih _ _ _).1, (ih _ _ _).2]
        exact setImagePixel_dims _ _ _ _
      · exact ⟨rfl, rfl⟩

/-- The row loop preserves the image dimensions. -/
theorem restoreRows_dims (srcW srcH : Nat) (srcData : Nat → Nat) (bs : ℚ)
    (sps margin fuel : Nat) (y : ℚ) (destY : Nat) (img : TImage) :
    (restoreRows srcW srcH srcData bs sps margin fuel y destY img).width = img.width ∧
    (restoreRows srcW srcH srcData bs sps margin fuel y destY img).height =
      img.height := by
  induction fuel generalizing y destY img with
  | zero => exact ⟨rfl, rfl⟩
  | succ fuel ih =>
      rw [restoreRows]
      split
      · rw [(ih _ _ _).1, (ih _ _ _).2]
        exact restoreCols_dims _ _ _ _ _ _ _ _ _ _ _ _
      · exact ⟨rfl, rfl⟩

/-- The column loop leaves a cell unchanged if no iteration targets it. -/
theorem restoreCols_frame (srcW srcH : Nat) (srcData : Nat → Nat) (bs : ℚ)
    (sps margin : Nat) (y : ℚ) (destY fuel : Nat) (x : ℚ) (destX : Nat) (img : TImage)
    (X Y : Nat) (hX : X < img.width)
    (hmiss : ∀ n : Nat, x + n * bs < (srcW : ℚ) →
      ¬(destX + n + margin = X ∧ destY + margin = Y)) :
    (restoreCols srcW srcH srcData bs sps margin y destY fuel x destX img).data
      (X + Y * img.width) = img.data (X + Y * img.width) := by
  induction fuel generalizing x destX img with
  | zero => rfl
  | succ fuel ih =>
      rw [restoreCols]
      split
      · next hguard =>
          have h0 : ¬(destX + margin = X ∧ destY + margin = Y) := by
            have := hmiss 0 (by push_cast; linarith)
            omega
          have hstep := setImagePixel_data_ne img (destX + margin) (destY + margin)
            (averageColorForSampleSize sps (⌊x + bs / 2⌋).toNat (⌊y + bs / 2⌋).toNat
              srcW srcH srcData) X Y hX h0
          have hW2 := (setImagePixel_dims img (destX + margin) (destY + margin)
            (averageColorForSampleSize sps (⌊x + bs / 2⌋).toNat (⌊y + bs / 2⌋).toNat
              srcW srcH srcData)).1
          rw [show X + Y * img.width = X + Y * (setImagePixel img (destX + margin)
            (destY + margin) (averageColorForSampleSize sps (⌊x + bs / 2⌋).toNat
              (⌊y + bs / 2⌋).toNat srcW srcH srcData)).width by rw [hW2]] at hstep ⊢
          rw [ih _ _ _ (by rw [hW2]; exact hX) ?_, hstep]
          intro n hn
          have := hmiss (n + 1) (by push_cast at hn ⊢; linarith)
          omega
      · rfl

/-- The column loop writes the sampled color of its j-th iteration into
    destination column `destX + j + margin`, and no later iteration of any
    loop overwrites it within the same call. -/
theorem restoreCols_hit (srcW srcH : Nat) (srcData : Nat → Nat) (bs : ℚ)
    (sps margin : Nat) (y : ℚ) (destY : Nat) (j fuel : Nat) (x : ℚ) (destX : Nat)
    (img : TImage) (hbs : 1 ≤ bs) (hx : x + j * bs < (srcW : ℚ)) (hfuel : j < fuel)
    (hXb : destX + j + margin < img.width) (hYb : destY + margin < img.height) :
    (restoreCols srcW srcH srcData bs sps margin y destY fuel x destX img).data
      ((destX + j + margin) + (destY + margin) * img.width) =
    averageColorForSampleSize sps (⌊x + j * bs + bs / 2⌋).toNat
      (⌊y + bs / 2⌋).toNat srcW srcH srcData := by
  induction j generalizing fuel x destX img with
  | zero =>
      obtain ⟨fuel2, rfl⟩ : ∃ fuel2, fuel = fuel2 + 1 := ⟨fuel - 1, by omega⟩
      have hguard : x < (srcW : ℚ) := by push_cast at hx; linarith
      rw [restoreCols, if_pos hguard]
      set img2 := setImagePixel img (destX + margin) (destY + margin)
        (averageColorForSampleSize sps (⌊x + bs / 2⌋).toNat (⌊y + bs / 2⌋).toNat
          srcW srcH srcData) with himg2
      have hW2 := (setImagePixel_dims img (destX + margin) (destY + margin)
        (averageColorForSampleSize sps (⌊x + bs / 2⌋).toNat (⌊y + bs / 2⌋).toNat
          srcW srcH srcData)).1
      have hH2 := (setImagePixel_dims img (destX + margin) (destY + margin)
        (averageColorForSampleSize sps (⌊x + bs / 2⌋).toNat (⌊y + bs / 2⌋).toNat
          srcW srcH srcData)).2
      have hXw : destX + 0 + margin < img2.width := by rw [hW2]; exact hXb
      rw [show (destX + 0 + margin) + (destY + margin) * img.width =
        (destX + 0 + margin) + (destY + margin) * img2.width by rw [hW2]]
      rw [restoreCols_frame srcW srcH srcData bs sps margin y destY fuel2 (x + bs)
        (destX + 1) img2 _ _ hXw ?_]
      · rw [show (destX + 0 + margin) + (destY + margin) * img2.width =
          (destX + margin) + (destY + margin) * img2.width by omega]
        rw [himg2]
        rw [show (destX + margin) + (destY + margin) * (setImagePixel img (destX + margin)
          (destY + margin) (averageColorForSampleSize sps (⌊x + bs / 2⌋).toNat
            (⌊y + bs / 2⌋).toNat srcW srcH srcData)).width =
          (destX + margin) + (destY + margin) * img.width by rw [hW2]]
        rw [setImagePixel_data_eq img _ _ _ (by omega) hYb]
        rw [show x + (0 : Nat) * bs + bs / 2 = x + bs / 2 by push_cast; ring]
      · intro n hn
        omega
  | succ j ih =>
      obtain ⟨fuel2, rfl⟩ : ∃ fuel2, fuel = fuel2 + 1 := ⟨fuel - 1, by omega⟩
      have hguard : x < (srcW : ℚ) := by
        have hj : (0 : ℚ) ≤ (j + 1 : Nat) * bs := by
          apply mul_nonneg
          · positivity
          · linarith
        push_cast at hx hj ⊢
        linarith
      rw [restoreCols, if_pos hguard]
      set img2 := setImagePixel img (destX + margin) (destY + margin)
        (averageColorForSampleSize sps (⌊x + bs / 2⌋).toNat (⌊y + bs / 2⌋).toNat
          srcW srcH srcData) with himg2
      have hW2 := (setImagePixel_dims img (destX + margin) (destY + margin)
        (averageColorForSampleSize sps (⌊x + bs / 2⌋).toNat (⌊y + bs / 2⌋).toNat
          srcW srcH srcData)).1
      have hH2 := (setImagePixel_dims img (destX + margin) (destY + margin)
        (averageColorForSampleSize sps (⌊x + bs / 2⌋).toNat (⌊y + bs / 2⌋).toNat
          srcW srcH srcData)).2
      have hx2 : (x + bs) + j * bs < (srcW : ℚ) := by push_cast at hx ⊢; linarith
      have hXb2 : (destX + 1) + j + margin < img2.width := by rw [hW2]; omega
      have hYb2 : destY + margin < img2.height := by rw [hH2]; exact hYb
      have hidx : (destX + (j + 1) + margin) + (destY + margin) * img.width =
          ((destX + 1) + j + margin) + (destY + margin) * img2.width := by
        rw [hW2]; omega
      rw [hidx, ih fuel2 (x + bs) (destX + 1) img2 hx2 (by omega) hXb2 hYb2]
      rw [show (x + bs) + j * bs + bs / 2 = x + (j + 1 : Nat) * bs + bs / 2 by
        push_cast; ring]

/-- The row loop leaves a cell unchanged if no iteration of any row targets
    it. -/
theorem restoreRows_frame (srcW srcH : Nat) (srcData : Nat → Nat) (bs : ℚ)
    (sps margin fuel : Nat) (y : ℚ) (destY : Nat) (img : TImage) (X Y : Nat)
    (hX : X < img.width)
    (hmiss : ∀ nR nC : Nat, y + nR * bs < (srcH : ℚ) →
      (0 : ℚ) + nC * bs < (srcW : ℚ) → ¬(nC + margin = X ∧ destY + nR + margin = Y)) :
    (restoreRows srcW srcH srcData bs sps margin fuel y destY img).data
      (X + Y * img.width) = img.data (X + Y * img.width) := by
  induction fuel generalizing y destY img with
  | zero => rfl
  | succ fuel ih =>
      rw [restoreRows]
      split
      · next hguard =>
          set img2 := restoreCols srcW srcH srcData bs sps margin y destY
            (srcW + 1) 0 0 img with himg2
          have hW2 : img2.width = img.width := by
            rw [himg2]
            exact (restoreCols_dims srcW srcH srcData bs sps margin y destY
              (srcW + 1) 0 0 img).1
          have hcols : img2.data (X + Y * img2.width) = img.data (X + Y * img.width) := by
            rw [himg2]
            rw [show X + Y * (restoreCols srcW srcH srcData bs sps margin y destY
              (srcW + 1) 0 0 img).width = X + Y * img.width by
                rw [(restoreCols_dims srcW srcH srcData bs sps margin y destY
                  (srcW + 1) 0 0 img).1]]
            apply restoreCols_frame srcW srcH srcData bs sps margin y destY
              (srcW + 1) 0 0 img X Y hX
            intro n hn
            have := hmiss 0 n (by push_cast; linarith) hn
            omega
          have hmiss2 : ∀ nR nC : Nat, (y + bs) + nR * bs < (srcH : ℚ) →
              (0 : ℚ) + nC * bs < (srcW : ℚ) →
              ¬(nC + margin = X ∧ (destY + 1) + nR + margin = Y) := by
            intro nR nC h1 h2
            have := hmiss (nR + 1) nC (by push_cast at h1 ⊢; linarith) h2
            omega
          rw [show X + Y * img.width = X + Y * img2.width by rw [hW2]]
          rw [ih (y + bs) (destY + 1) img2 (by rw [hW2]; exact hX) hmiss2]
          rw [hcols, hW2]
      · rfl

/-- The row loop writes, at destination cell
    `(j + margin, destY + l + margin)`, the color sampled at the center of
    source block (j, l). -/
theorem restoreRows_hit (srcW srcH : Nat) (srcData : Nat → Nat) (bs : ℚ)
    (sps margin : Nat) (l fuel : Nat) (y : ℚ) (destY : Nat) (img : TImage)
    (hbs : 1 ≤ bs) (hy : y + l * bs < (srcH : ℚ)) (hfuel : l < fuel)
    (j : Nat) (hx : (0 : ℚ) + j * bs < (srcW : ℚ))
    (hXb : j + margin < img.width) (hYb : destY + l + margin < img.height) :
    (restoreRows srcW srcH srcData bs sps margin fuel y destY img).data
      ((j + margin) + (destY + l + margin) * img.width) =
    averageColorForSampleSize sps (⌊(0 : ℚ) + j * bs + bs / 2⌋).toNat
      (⌊y + l * bs + bs / 2⌋).toNat srcW srcH srcData := by
  induction l generalizing fuel y destY img with
  | zero =>
      obtain ⟨fuel2, rfl⟩ : ∃ fuel2, fuel = fuel2 + 1 := ⟨fuel - 1, by omega⟩
      have hguard : y < (srcH : ℚ) := by push_cast at hy; linarith
      rw [restoreRows, if_pos hguard]
      set img2 := restoreCols srcW srcH srcData bs sps margin y destY
        (srcW + 1) 0 0 img with himg2
      have hW2 := (restoreCols_dims srcW srcH srcData bs sps margin y destY
        (srcW + 1) 0 0 img).1
      have hXw : (j + margin) < img2.width := by rw [hW2]; exact hXb
      rw [show (j + margin) + (destY + 0 + margin) * img.width =
        (j + margin) + (destY + 0 + margin) * img2.width by rw [hW2]]
      rw [restoreRows_frame srcW srcH srcData bs sps margin fuel2 (y + bs)
        (destY + 1) img2 _ _ hXw ?_]
      · have hj2 : j < srcW := by
          have hj1 : (j : ℚ) * 1 ≤ (j : ℚ) * bs := by
            apply mul_le_mul_of_nonneg_left hbs
            positivity
          have hj3 : (j : ℚ) < (srcW : ℚ) := by linarith
          exact_mod_cast hj3
        have hcols := restoreCols_hit srcW srcH srcData bs sps margin y destY j
          (srcW + 1) 0 0 img hbs hx (by omega) (by omega) (by omega)
        rw [himg2, show (j + margin) + (destY + 0 + margin) *
          (restoreCols srcW srcH srcData bs sps margin y destY (srcW + 1) 0 0 img).width =
          (0 + j + margin) + (destY + margin) * img.width by rw [hW2]; ring_nf]
        rw [hcols]
        rw [show y + (0 : Nat) * bs + bs / 2 = y + bs / 2 by push_cast; ring]
      · intro nR nC h1 h2
        omega
  | succ l ih =>
      obtain ⟨fuel2, rfl⟩ : ∃ fuel2, fuel = fuel2 + 1 := ⟨fuel - 1, by omega⟩
      have hguard : y < (srcH : ℚ) := by
        have hl : (0 : ℚ) ≤ ((l + 1 : Nat) : ℚ) * bs := by
          apply mul_nonneg
          · positivity
          · linarith
        push_cast at hy hl ⊢
        linarith
      rw [restoreRows, if_pos hguard]
      set img2 := restoreCols srcW srcH srcData bs sps margin y destY
        (srcW + 1) 0 0 img with himg2
      have hW2 := (restoreCols_dims srcW srcH srcData bs sps margin y destY
        (srcW + 1) 0 0 img).1
      have hH2 := (restoreCols_dims srcW srcH srcData bs sps margin y destY
        (srcW + 1) 0 0 img).2
      have hy2 : (y + bs) + l * bs < (srcH : ℚ) := by push_cast at hy ⊢; linarith
      have hXb2 : j + margin < img2.width := by rw [hW2]; exact hXb
      have hYb2 : (destY + 1) + l + margin < img2.height := by rw [hH2]; omega
      rw [show (j + margin) + (destY + (l + 1) + margin) * img.width =
        (j + margin) + ((destY + 1) + l + margin) * img2.width by rw [hW2]; ring_nf]
      rw [ih fuel2 (y + bs) (destY + 1) img2 hy2 (by omega) hXb2 hYb2]
      rw [show (y + bs) + l * bs + bs / 2 = y + ((l + 1 : Nat) : ℚ) * bs + bs / 2 by
        push_cast; ring]

/-- With a single-pixel sample window, the average of an in-range pixel is
    the pixel itself. -/
theorem averageColor_one (x y w h : Nat) (pixelData : Nat → Nat)
    (hx : x < w) (hy : y < h) (hx32 : x < 2 ^ 32) (hy32 : y < 2 ^ 32)
    (hc : pixelData (x + y * w) < 2 ^ 32) :
    averageColorForSampleSize 1 x y w h pixelData = pixelData (x + y * w) := by
  rw [averageColorForSampleSize]
  simp only [show (if (1 : Nat) < 1 then (1 : Nat) else 1) = 1 from rfl,
    show (1 : Nat) / 2 = 0 from rfl, Nat.sub_zero,
    show List.range 1 = [0] from rfl, List.foldl_cons, List.foldl_nil]
  have hx2 : ((x + 2 ^ 32) % 2 ^ 32 + 0) % 2 ^ 32 = x := by omega
  have hy2 : ((y + 2 ^ 32) % 2 ^ 32 + 0) % 2 ^ 32 = y := by omega
  rw [hx2, hy2, getPixel, if_neg (by omega)]
  omega

/-- Rational floor of a quotient of naturals is natural division. -/
theorem floor_natCast_div_natCast (a b : Nat) :
    (⌊(a : ℚ) / (b : ℚ)⌋).toNat = a / b := by
  rw [show ((a : ℚ)) = (((a : ℤ)) : ℚ) by push_cast; ring]
  rw [Rat.floor_intCast_div_natCast, ← Int.natCast_div, Int.toNat_natCast]

/-- Any loop iteration index n with n * blockSize still inside the source is
    at most floor(src / blockSize). -/
theorem iter_le_floor (w : Nat) (bs : ℚ) (hbs : 1 ≤ bs) (n : Nat)
    (h : (n : ℚ) * bs < (w : ℚ)) : n ≤ (⌊(w : ℚ) / bs⌋).toNat := by
  have hbs0 : (0 : ℚ) < bs := by linarith
  have h2 : ((n : ℤ) : ℚ) ≤ (w : ℚ) / bs := by
    have := (lt_div_iff₀ hbs0).mpr h
    push_cast
    linarith
  have h4 : (n : ℤ) ≤ ⌊(w : ℚ) / bs⌋ := Int.le_floor.mpr h2
  omega

/-- Claim C7 (amended): for blockSize at least 1, restore produces a buffer of
    floor(srcWidth / blockSize) + 2 * margin by
    floor(srcHeight / blockSize) + 2 * margin pixels; every pixel of the left
    margin columns and top margin rows is 0, and so is every margin pixel
    beyond column margin + floor(srcWidth / blockSize) or row
    margin + floor(srcHeight / blockSize).  (The margin column
    margin + floor(srcWidth / blockSize) itself, and the corresponding row,
    can be overwritten by the loop overshoot when blockSize does not divide
    the source dimension; see the counterexample.) -/
theorem restorePixelatedImage_spec (src : TImage) (bs : ℚ) (sps margin : Nat)
    (hbs : 1 ≤ bs) :
    (restorePixelatedImage src bs sps margin).width =
      (⌊(src.width : ℚ) / bs⌋).toNat + margin * 2 ∧
    (restorePixelatedImage src bs sps margin).height =
      (⌊(src.height : ℚ) / bs⌋).toNat + margin * 2 ∧
    (∀ X Y, X < (restorePixelatedImage src bs sps margin).width →
      Y < (restorePixelatedImage src bs sps margin).height →
      (X < margin ∨ Y < margin ∨ margin + (⌊(src.width : ℚ) / bs⌋).toNat < X ∨
        margin + (⌊(src.height : ℚ) / bs⌋).toNat < Y) →
      (restorePixelatedImage src bs sps margin).data
        (X + Y * (restorePixelatedImage src bs sps margin).width) = 0) := by
  have hdims := restoreRows_dims src.width src.height src.data bs sps margin
    (src.height + 1) 0 0
    (createPixmap ((⌊(src.width : ℚ) / bs⌋).toNat + margin * 2)
      ((⌊(src.height : ℚ) / bs⌋).toNat + margin * 2) 32)
  refine ⟨?_, ?_, ?_⟩
  · rw [restorePixelatedImage]
    exact hdims.1
  · rw [restorePixelatedImage]
    exact hdims.2
  · intro X Y hX hY hregion
    rw [restorePixelatedImage] at hX hY ⊢
    rw [hdims.1] at hX
    rw [hdims.2] at hY
    rw [show X + Y * (restoreRows src.width src.height src.data bs sps margin
      (src.height + 1) 0 0 (createPixmap ((⌊(src.width : ℚ) / bs⌋).toNat + margin * 2)
        ((⌊(src.height : ℚ) / bs⌋).toNat + margin * 2) 32)).width =
      X + Y * (createPixmap ((⌊(src.width : ℚ) / bs⌋).toNat + margin * 2)
        ((⌊(src.height : ℚ) / bs⌋).toNat + margin * 2) 32).width by rw [hdims.1]]
    rw [restoreRows_frame src.width src.height src.data bs sps margin
      (src.height + 1) 0 0 _ X Y hX ?_]
    · rfl
    · intro nR nC h1 h2 hcon
      obtain ⟨hcX, hcY⟩ := hcon
      have hC := iter_le_floor src.width bs hbs nC (by linarith)
      have hR := iter_le_floor src.height bs hbs nR (by linarith)
      rcases hregion with hr | hr | hr | hr <;> omega

/-- Witness for the amended claim C7: a 4x4 source, blockSize 2, sample size
    1, margin 1: the output is 4x4 and its top-left margin pixel is 0. -/
theorem restorePixelatedImage_spec_witness :
    (restorePixelatedImage ⟨4, 4, 32, fun _ => 9⟩ 2 1 1).width =
      (⌊((4 : Nat) : ℚ) / 2⌋).toNat + 1 * 2 ∧
    (restorePixelatedImage ⟨4, 4, 32, fun _ => 9⟩ 2 1 1).data
      (0 + 0 * (restorePixelatedImage ⟨4, 4, 32, fun _ => 9⟩ 2 1 1).width) = 0 :=
  ⟨(restorePixelatedImage_spec ⟨4, 4, 32, fun _ => 9⟩ 2 1 1 (by norm_num)).1,
   (restorePixelatedImage_spec ⟨4, 4, 32, fun _ => 9⟩ 2 1 1 (by norm_num)).2.2 0 0
     (by rw [(restorePixelatedImage_spec ⟨4, 4, 32, fun _ => 9⟩ 2 1 1 (by norm_num)).1]
         omega)
     (by rw [(restorePixelatedImage_spec ⟨4, 4, 32, fun _ => 9⟩ 2 1 1 (by norm_num)).2.1]
         omega)
     (Or.inl (by omega))⟩

/-- Claim C7, counterexample: a 9x9 source of solid color 5, blockSize 5/2,
    sampleSize 1, margin 1.  The output is 5x5
    (floor(9 / 2.5) = 3 plus two margin pixels per axis), so its margin is
    the border ring; yet pixel (4, 4), on the right/bottom margin, holds the
    sampled color 5, not 0: because 2.5 does not divide 9 the x and y loops
    run a fourth iteration (x = 7.5 < 9) whose destination lands in the
    margin, with sample center floor(7.5 + 1.25) = 8 inside the source. -/
theorem restore_margin_counterexample :
    (restorePixelatedImage ⟨9, 9, 32, fun _ => 5⟩ (5 / 2) 1 1).width = 5 ∧
    (restorePixelatedImage ⟨9, 9, 32, fun _ => 5⟩ (5 / 2) 1 1).data
      (4 + 4 * (restorePixelatedImage ⟨9, 9, 32, fun _ => 5⟩ (5 / 2) 1 1).width) = 5 := by
  have hfl9 : ⌊((9 : Nat) : ℚ) / (5 / 2)⌋ = 3 := by
    norm_num [Int.floor_eq_iff]
  have hfl : (⌊((9 : Nat) : ℚ) / (5 / 2)⌋).toNat = 3 := by
    rw [hfl9]
    rfl
  have hspec := restorePixelatedImage_spec ⟨9, 9, 32, fun _ => 5⟩ (5 / 2) 1 1
    (by norm_num)
  have hw : (restorePixelatedImage ⟨9, 9, 32, fun _ => 5⟩ (5 / 2) 1 1).width = 5 := by
    rw [hspec.1]
    rw [show ((⟨9, 9, 32, fun _ => 5⟩ : TImage).width : ℚ) = ((9 : Nat) : ℚ) from rfl]
    omega
  refine ⟨hw, ?_⟩
  rw [hw, restorePixelatedImage]
  have hhit := restoreRows_hit 9 9 (fun _ => 5) (5 / 2) 1 1 3 10 0 0
    (createPixmap ((⌊((9 : Nat) : ℚ) / (5 / 2)⌋).toNat + 1 * 2)
      ((⌊((9 : Nat) : ℚ) / (5 / 2)⌋).toNat + 1 * 2) 32)
    (by norm_num) (by push_cast; norm_num) (by omega) 3 (by push_cast; norm_num)
    (by rw [show (createPixmap ((⌊((9 : Nat) : ℚ) / (5 / 2)⌋).toNat + 1 * 2)
      ((⌊((9 : Nat) : ℚ) / (5 / 2)⌋).toNat + 1 * 2) 32).width =
        (⌊((9 : Nat) : ℚ) / (5 / 2)⌋).toNat + 1 * 2 from rfl]; omega)
    (by rw [show (createPixmap ((⌊((9 : Nat) : ℚ) / (5 / 2)⌋).toNat + 1 * 2)
      ((⌊((9 : Nat) : ℚ) / (5 / 2)⌋).toNat + 1 * 2) 32).height =
        (⌊((9 : Nat) : ℚ) / (5 / 2)⌋).toNat + 1 * 2 from rfl]; omega)
  rw [show (createPixmap ((⌊((9 : Nat) : ℚ) / (5 / 2)⌋).toNat + 1 * 2)
      ((⌊((9 : Nat) : ℚ) / (5 / 2)⌋).toNat + 1 * 2) 32).width = 5 by rw [hfl]; rfl] at hhit
  rw [show (3 + 1) + (0 + 3 + 1) * 5 = 4 + 4 * 5 by omega] at hhit
  rw [show ((⟨9, 9, 32, fun _ => 5⟩ : TImage).width : Nat) = 9 from rfl]
  rw [show ((⟨9, 9, 32, fun _ => 5⟩ : TImage).height : Nat) = 9 from rfl]
  rw [hhit]
  have hflx9 : ⌊(0 : ℚ) + (3 : Nat) * (5 / 2) + 5 / 2 / 2⌋ = 8 := by
    norm_num [Int.floor_eq_iff]
  have hflx : (⌊(0 : ℚ) + (3 : Nat) * (5 / 2) + 5 / 2 / 2⌋).toNat = 8 := by
    rw [hflx9]
    rfl
  rw [hflx]
  rw [averageColor_one 8 8 9 9 (fun _ => 5) (by omega) (by omega) (by omega) (by omega)
    (by show (5 : Nat) < 2 ^ 32; norm_num)]

/-- Floor of a block center coordinate: iteration coordinate u * N plus half
    a block, truncated as the C float-to-unsigned conversion does. -/
theorem floor_center (u N : Nat) :
    (⌊(0 : ℚ) + (u : ℚ) * (N : ℚ) + (N : ℚ) / 2⌋).toNat = u * N + N / 2 := by
  rw [show (0 : ℚ) + (u : ℚ) * (N : ℚ) + (N : ℚ) / 2
      = ((u * N : ℕ) : ℚ) + (N : ℚ) / 2 by push_cast; ring]
  rw [Int.floor_nat_add]
  have h2 : ⌊(N : ℚ) / 2⌋ = (N : ℤ) / 2 := by
    rw [show ((N : ℚ)) = (((N : ℤ)) : ℚ) by push_cast; ring,
      show ((2 : ℚ)) = (((2 : ℕ)) : ℚ) by norm_num]
    exact Rat.floor_intCast_div_natCast _ _
  rw [h2]
  omega

/-- Claim C8: restoring a source made of solid blocks with integer block size
    N (at least 1) and sampleSize 1 reproduces the exact 32-bit color of any
    block that lies entirely inside the source, at the corresponding
    destination cell (margin offset included).  The width/height bounds of
    2^16 reflect the uint16 dimension fields of TImage. -/
theorem restore_solid_block (src : TImage) (N margin dx dy c : Nat)
    (hN : 1 ≤ N) (hw16 : src.width < 2 ^ 16) (hh16 : src.height < 2 ^ 16)
    (hc : c < 2 ^ 32)
    (hx : (dx + 1) * N ≤ src.width) (hy : (dy + 1) * N ≤ src.height)
    (hsolid : ∀ i j, i < N → j < N →
      src.data ((dx * N + i) + (dy * N + j) * src.width) = c) :
    (restorePixelatedImage src (N : ℚ) 1 margin).data
      ((dx + margin) + (dy + margin) *
        (restorePixelatedImage src (N : ℚ) 1 margin).width) = c := by
  have hN0 : 0 < N := hN
  have hdxw : dx * N + N ≤ src.width := by rw [Nat.succ_mul] at hx; omega
  have hdyh : dy * N + N ≤ src.height := by rw [Nat.succ_mul] at hy; omega
  have hfloorw : (⌊(src.width : ℚ) / (N : ℚ)⌋).toNat = src.width / N :=
    floor_natCast_div_natCast _ _
  have hfloorh : (⌊(src.height : ℚ) / (N : ℚ)⌋).toNat = src.height / N :=
    floor_natCast_div_natCast _ _
  have hdxf : dx < src.width / N := by
    have h1 : dx + 1 ≤ src.width / N := (Nat.le_div_iff_mul_le hN0).mpr hx
    omega
  have hdyf : dy < src.height / N := by
    have h1 : dy + 1 ≤ src.height / N := (Nat.le_div_iff_mul_le hN0).mpr hy
    omega
  have hbs : (1 : ℚ) ≤ (N : ℚ) := by exact_mod_cast hN
  have hdims := restoreRows_dims src.width src.height src.data (N : ℚ) 1 margin
    (src.height + 1) 0 0
    (createPixmap ((⌊(src.width : ℚ) / (N : ℚ)⌋).toNat + margin * 2)
      ((⌊(src.height : ℚ) / (N : ℚ)⌋).toNat + margin * 2) 32)
  have hyn : dy * N < src.height := by omega
  have hxn : dx * N < src.width := by omega
  have hdyle : dy ≤ dy * N := Nat.le_mul_of_pos_right dy hN0
  have hhit := restoreRows_hit src.width src.height src.data (N : ℚ) 1 margin dy
    (src.height + 1) 0 0
    (createPixmap ((⌊(src.width : ℚ) / (N : ℚ)⌋).toNat + margin * 2)
      ((⌊(src.height : ℚ) / (N : ℚ)⌋).toNat + margin * 2) 32)
    hbs (by rw [zero_add]; exact_mod_cast hyn) (by omega) dx
    (by rw [zero_add]; exact_mod_cast hxn)
    (by rw [show (createPixmap ((⌊(src.width : ℚ) / (N : ℚ)⌋).toNat + margin * 2)
      ((⌊(src.height : ℚ) / (N : ℚ)⌋).toNat + margin * 2) 32).width =
        (⌊(src.width : ℚ) / (N : ℚ)⌋).toNat + margin * 2 from rfl, hfloorw]; omega)
    (by rw [show (createPixmap ((⌊(src.width : ℚ) / (N : ℚ)⌋).toNat + margin * 2)
      ((⌊(src.height : ℚ) / (N : ℚ)⌋).toNat + margin * 2) 32).height =
        (⌊(src.height : ℚ) / (N : ℚ)⌋).toNat + margin * 2 from rfl, hfloorh]; omega)
  rw [floor_center, floor_center] at hhit
  have hcx : dx * N + N / 2 < src.width := by
    have : N / 2 < N := Nat.div_lt_self hN0 (by omega)
    omega
  have hcy : dy * N + N / 2 < src.height := by
    have : N / 2 < N := Nat.div_lt_self hN0 (by omega)
    omega
  have hcenter : src.data ((dx * N + N / 2) + (dy * N + N / 2) * src.width) = c :=
    hsolid (N / 2) (N / 2) (Nat.div_lt_self hN0 (by omega)) (Nat.div_lt_self hN0 (by omega))
  rw [averageColor_one _ _ _ _ _ hcx hcy (by omega) (by omega) (by rw [hcenter]; omega)]
    at hhit
  rw [hcenter] at hhit
  rw [restorePixelatedImage]
  rw [show (dx + margin) + (dy + margin) * (restoreRows src.width src.height src.data
    (N : ℚ) 1 margin (src.height + 1) 0 0
    (createPixmap ((⌊(src.width : ℚ) / (N : ℚ)⌋).toNat + margin * 2)
      ((⌊(src.height : ℚ) / (N : ℚ)⌋).toNat + margin * 2) 32)).width =
    (dx + margin) + (0 + dy + margin) * (createPixmap
      ((⌊(src.width : ℚ) / (N : ℚ)⌋).toNat + margin * 2)
      ((⌊(src.height : ℚ) / (N : ℚ)⌋).toNat + margin * 2) 32).width by
    rw [hdims.1]; ring_nf]
  exact hhit

/-- Witness for claim C8: a 2x2 solid source of color 7 restored with block
    size 2, sample size 1 and no margin reproduces color 7 at cell (0, 0). -/
theorem restore_solid_block_witness :
    (restorePixelatedImage ⟨2, 2, 32, fun _ => 7⟩ ((2 : Nat) : ℚ) 1 0).data
      ((0 + 0) + (0 + 0) *
        (restorePixelatedImage ⟨2, 2, 32, fun _ => 7⟩ ((2 : Nat) : ℚ) 1 0).width) = 7 :=
  restore_solid_block ⟨2, 2, 32, fun _ => 7⟩ 2 0 0 0 7 (by decide) (by decide)
    (by decide) (by decide) (by decide) (by decide) (fun i j _ _ => rfl)

/-- One normalizeColors iteration writes only colors already present in the
    buffer the call started from. -/
theorem normalizeStep_pres (w h threshold : Nat) (colors : Nat → Nat)
    (st : (Nat → Nat × Nat) × (Nat → Nat)) (x y : Nat) (hx : x < w) (hy : y < h)
    (hP : ∀ k, k < w * h → ∃ j, j < w * h ∧ st.2 k = colors j) :
    ∀ k, k < w * h →
      ∃ j, j < w * h ∧ (normalizeStep w h threshold st x y).2 k = colors j := by
  intro k hk
  rw [normalizeStep]
  split
  · exact hP k hk
  · have hi : x + y * w < w * h := by
      calc x + y * w < w + y * w := by omega
        _ = (y + 1) * w := by ring
        _ ≤ h * w := Nat.mul_le_mul_right w (by omega)
        _ = w * h := by ring
    obtain ⟨j0, hj0, hbase⟩ := hP (x + y * w) hi
    refine (foldl_preserve
      (fun st2 : (Nat → Nat × Nat) × (Nat → Nat) =>
        ∀ k2, k2 < w * h → ∃ j, j < w * h ∧ st2.2 k2 = colors j) _ _ ?_ _ ?_) k hk
    · intro st2 jj hjj hP2
      intro k2 hk2
      split
      · show ∃ j, j < w * h ∧ upd st2.2 jj (st.2 (x + y * w)) k2 = colors j
        rw [upd]
        by_cases heq : k2 = jj
        · rw [if_pos heq]
          exact ⟨j0, hj0, hbase⟩
        · rw [if_neg heq]
          exact hP2 k2 hk2
      · exact hP2 k2 hk2
    · intro k2 hk2
      exact hP k2 hk2

/-- Claim C10: normalizeColors never introduces a new color: after the call,
    every pixel of the grid holds a 32-bit value that some pixel of the same
    buffer held before the call. -/
theorem normalizeColors_no_new_colors (w h threshold : Nat) (colors : Nat → Nat)
    (k : Nat) (hk : k < w * h) :
    ∃ j, j < w * h ∧ normalizeColors w h threshold colors k = colors j := by
  rw [normalizeColors]
  refine (foldl_preserve
    (fun st : (Nat → Nat × Nat) × (Nat → Nat) =>
      ∀ k2, k2 < w * h → ∃ j, j < w * h ∧ st.2 k2 = colors j) _ _ ?_ _ ?_) k hk
  · intro st y hy hP
    refine foldl_preserve
      (fun st2 : (Nat → Nat × Nat) × (Nat → Nat) =>
        ∀ k2, k2 < w * h → ∃ j, j < w * h ∧ st2.2 k2 = colors j) _ _ ?_ _ hP
    intro st2 x hx hP2
    exact normalizeStep_pres w h threshold colors st2 x y (List.mem_range.mp hx)
      (List.mem_range.mp hy) hP2
  · intro k2 hk2
    exact ⟨k2, hk2, rfl⟩

/-- Witness for claim C10: the 2x1 buffer (10, 11) with threshold 5 (the
    second pixel gets recolored to 10); every output pixel is one of the
    original values. -/
theorem normalizeColors_no_new_colors_witness :
    ∃ j, j < 2 * 1 ∧
      normalizeColors 2 1 5 (fun i => 10 + i) 1 = (fun i : Nat => 10 + i) j :=
  normalizeColors_no_new_colors 2 1 5 (fun i => 10 + i) 1 (by decide)

end RePiX
